import Mathlib

/-!
Verification of the meeting-assistant pipeline (`src/llm_processor.py`,
`src/ai_agent.py`, `src/models.py`).

Strings are modelled as `List Char`.  LLM and external-service calls are
modelled as oracles: each pipeline function takes the outcome of the
underlying call (`Except PyErr (List Char)`) as an argument, since the
Python code treats the response as untrusted opaque text.  Python's `json`
module (`json.loads` / `json.dumps`) is modelled by an executable
recursive-descent parser and serializer over a JSON value type; numbers are
restricted to integers and `\uXXXX` escapes are not modelled.
-/

namespace MeetingAssistant

set_option maxRecDepth 40000

mutual

/-- JSON values as produced by `json.loads`.  Mutual inductive so that the
structural recursions over arrays and objects are straightforward.  Object
member lists may contain duplicate keys; lookups are last-occurrence-wins,
matching the dictionary `json.loads` builds. -/
inductive Json : Type where
  | null : Json
  | bool : Bool → Json
  | num : Int → Json
  | str : List Char → Json
  | arr : JsonArr → Json
  | obj : JsonObj → Json
  deriving Repr

inductive JsonArr : Type where
  | nil : JsonArr
  | cons : Json → JsonArr → JsonArr
  deriving Repr

inductive JsonObj : Type where
  | nil : JsonObj
  | cons : List Char → Json → JsonObj → JsonObj
  deriving Repr

end

/-- Elements of a JSON array as a plain list. -/
def JsonArr.toList : JsonArr → List Json
  | .nil => []
  | .cons x tl => x :: tl.toList

/-- Keys of a JSON object in member order (dictionary iteration order). -/
def JsonObj.keys : JsonObj → List (List Char)
  | .nil => []
  | .cons k _ tl => k :: tl.keys

/-- Dictionary lookup, last occurrence wins (as `json.loads` builds a
Python dict, later duplicate keys overwrite earlier ones). -/
def JsonObj.get : JsonObj → List Char → Option Json
  | .nil, _ => none
  | .cons k v tl, key =>
    match tl.get key with
    | some r => some r
    | none => if k = key then some v else none

/-- Serialization of one string character (model of `json.dumps` escaping:
quote, backslash and the five common control characters get two-character
escapes; every other character is emitted verbatim). -/
def escChar (c : Char) : List Char :=
  if c = '"' then ['\\', '"']
  else if c = '\\' then ['\\', '\\']
  else if c = '\n' then ['\\', 'n']
  else if c = '\t' then ['\\', 't']
  else if c = '\r' then ['\\', 'r']
  else if c = '\x08' then ['\\', 'b']
  else if c = '\x0c' then ['\\', 'f']
  else [c]

/-- Escaped body of a JSON string literal. -/
def escStr (s : List Char) : List Char := s.flatMap escChar

/-- Decimal digits of a natural number, most significant first. -/
def serNat (n : Nat) : List Char :=
  if n = 0 then ['0'] else ((Nat.digits 10 n).map Nat.digitChar).reverse

/-- Decimal rendering of an integer. -/
def serInt : Int → List Char
  | Int.ofNat n => serNat n
  | Int.negSucc m => '-' :: serNat (m + 1)

mutual

/-- Compact serialization of a JSON value (model of `json.dumps` with no
extra whitespace). -/
def serLit : Json → List Char
  | .null => ['n', 'u', 'l', 'l']
  | .num n => serInt n
  | .bool true => ['t', 'r', 'u', 'e']
  | .bool false => ['f', 'a', 'l', 's', 'e']
  | .str s => '"' :: (escStr s ++ ['"'])
  | .arr a => '[' :: (serArrElems a ++ [']'])
  | .obj o => '{' :: (serObjElems o ++ ['}'])

/-- Serialized members of an array, comma separated. -/
def serArrElems : JsonArr → List Char
  | .nil => []
  | .cons x tl => serLit x ++ serArrRest tl

/-- Serialized members after the first, each preceded by a comma. -/
def serArrRest : JsonArr → List Char
  | .nil => []
  | .cons x tl => ',' :: (serLit x ++ serArrRest tl)

/-- Serialized members of an object, comma separated. -/
def serObjElems : JsonObj → List Char
  | .nil => []
  | .cons k v tl => '"' :: (escStr k ++ '"' :: ':' :: (serLit v ++ serObjRest tl))

/-- Serialized object members after the first, each preceded by a comma. -/
def serObjRest : JsonObj → List Char
  | .nil => []
  | .cons k v tl => ',' :: '"' :: (escStr k ++ '"' :: ':' :: (serLit v ++ serObjRest tl))

end

/-- Characters for which the embedding's round trip is stated: anything
the serializer emits verbatim or through a short escape — no brace
characters (the claim's forced exclusion: the brace scan of
`extract_first_json_block` does not special-case braces inside string
literals) and no control characters outside the five short escapes (a
model boundary: `\uXXXX` escapes are not modelled). -/
def charOk (c : Char) : Bool :=
  (32 ≤ c.toNat || c = '\n' || c = '\t' || c = '\r' || c = '\x08' || c = '\x0c') &&
    ¬ c = '{' && ¬ c = '}'

mutual

/-- A JSON value all of whose strings (and keys) consist of `charOk`
characters. -/
def tameJson : Json → Bool
  | .null => true
  | .bool _ => true
  | .num _ => true
  | .str s => s.all charOk
  | .arr a => tameArr a
  | .obj o => tameObj o

/-- `tameJson` on every member of an array. -/
def tameArr : JsonArr → Bool
  | .nil => true
  | .cons x tl => tameJson x && tameArr tl

/-- `tameJson` on every member of an object, keys included. -/
def tameObj : JsonObj → Bool
  | .nil => true
  | .cons k v tl => k.all charOk && tameJson v && tameObj tl

end

/-- JSON insignificant whitespace (RFC 8259, as honoured by `json.loads`). -/
def jsonWs (c : Char) : Bool :=
  c = ' ' || c = '\t' || c = '\n' || c = '\r'

/-- Skip insignificant whitespace. -/
def skipWs (cs : List Char) : List Char := cs.dropWhile jsonWs

/-- Undo a two-character escape inside a JSON string literal. -/
def unescape (c : Char) : Option Char :=
  if c = '"' then some '"'
  else if c = '\\' then some '\\'
  else if c = '/' then some '/'
  else if c = 'n' then some '\n'
  else if c = 't' then some '\t'
  else if c = 'r' then some '\r'
  else if c = 'b' then some '\x08'
  else if c = 'f' then some '\x0c'
  else none

/-- Body of a JSON string literal after the opening quote; `json.loads` in
strict mode rejects raw control characters.  Returns the decoded string
and the input remaining after the closing quote. -/
def parseStrBody : List Char → Option (List Char × List Char)
  | [] => none
  | '"' :: rest => some ([], rest)
  | '\\' :: e :: rest =>
    match unescape e with
    | none => none
    | some c =>
      match parseStrBody rest with
      | none => none
      | some (s, r) => some (c :: s, r)
  | c :: rest =>
    if c.toNat < 32 then none
    else
      match parseStrBody rest with
      | none => none
      | some (s, r) => some (c :: s, r)

/-- Digit run of a JSON number (no leading zero, as in the JSON grammar). -/
def parseNum (cs : List Char) : Option (Nat × List Char) :=
  let ds := cs.takeWhile Char.isDigit
  let rest := cs.dropWhile Char.isDigit
  if ds.isEmpty then none
  else if 1 < ds.length ∧ ds.head? = some '0' then none
  else some (ds.foldl (fun a c => 10 * a + (c.toNat - 48)) 0, rest)

mutual

/-- Recursive-descent JSON value parser (model of `json.loads`), fueled for
termination; the top-level wrapper supplies ample fuel. -/
def parseValue : Nat → List Char → Option (Json × List Char)
  | 0, _ => none
  | fuel + 1, cs =>
    match skipWs cs with
    | 'n' :: 'u' :: 'l' :: 'l' :: rest => some (.null, rest)
    | 't' :: 'r' :: 'u' :: 'e' :: rest => some (.bool true, rest)
    | 'f' :: 'a' :: 'l' :: 's' :: 'e' :: rest => some (.bool false, rest)
    | '"' :: rest =>
      match parseStrBody rest with
      | none => none
      | some (s, r) => some (.str s, r)
    | '[' :: rest => parseArrElems fuel (skipWs rest)
    | '{' :: rest => parseObjElems fuel (skipWs rest)
    | '-' :: rest =>
      match parseNum rest with
      | none => none
      | some (n, r) => some (.num (-(n : Int)), r)
    | c :: rest =>
      if c.isDigit then
        match parseNum (c :: rest) with
        | none => none
        | some (n, r) => some (.num (n : Int), r)
      else none
    | [] => none

/-- Array members, positioned just after `[` (whitespace already skipped). -/
def parseArrElems : Nat → List Char → Option (Json × List Char)
  | 0, _ => none
  | fuel + 1, cs =>
    match cs with
    | ']' :: rest => some (.arr .nil, rest)
    | _ =>
      match parseValue fuel cs with
      | none => none
      | some (v, r) =>
        match parseArrTail fuel (skipWs r) with
        | none => none
        | some (tl, r2) => some (.arr (.cons v tl), r2)

/-- Array continuation: `]` ends the array, `,` precedes another member. -/
def parseArrTail : Nat → List Char → Option (JsonArr × List Char)
  | 0, _ => none
  | fuel + 1, cs =>
    match cs with
    | ']' :: rest => some (.nil, rest)
    | ',' :: rest =>
      match parseValue fuel rest with
      | none => none
      | some (v, r) =>
        match parseArrTail fuel (skipWs r) with
        | none => none
        | some (tl, r2) => some (.cons v tl, r2)
    | _ => none

/-- Object members, positioned just after `{` (whitespace already skipped). -/
def parseObjElems : Nat → List Char → Option (Json × List Char)
  | 0, _ => none
  | fuel + 1, cs =>
    match cs with
    | '}' :: rest => some (.obj .nil, rest)
    | '"' :: rest =>
      match parseStrBody rest with
      | none => none
      | some (k, r) =>
        match skipWs r with
        | ':' :: r2 =>
          match parseValue fuel r2 with
          | none => none
          | some (v, r3) =>
            match parseObjTail fuel (skipWs r3) with
            | none => none
            | some (tl, r4) => some (.obj (.cons k v tl), r4)
        | _ => none
    | _ => none

/-- Object continuation: `}` ends the object, `,` precedes another member. -/
def parseObjTail : Nat → List Char → Option (JsonObj × List Char)
  | 0, _ => none
  | fuel + 1, cs =>
    match cs with
    | '}' :: rest => some (.nil, rest)
    | ',' :: rest =>
      match skipWs rest with
      | '"' :: r =>
        match parseStrBody r with
        | none => none
        | some (k, r1) =>
          match skipWs r1 with
          | ':' :: r2 =>
            match parseValue fuel r2 with
            | none => none
            | some (v, r3) =>
              match parseObjTail fuel (skipWs r3) with
              | none => none
              | some (tl, r4) => some (.cons k v tl, r4)
          | _ => none
      | _ => none
    | _ => none

end

/-- Model of `json.loads`: parse one value and require that nothing but
whitespace remains. -/
def json_loads (s : List Char) : Option Json :=
  match parseValue (s.length + 1) s with
  | some (j, rest) => if (skipWs rest).isEmpty then some j else none
  | none => none

/-- Outcomes of `LLMProcessor.extract_first_json_block`: the two
`ValueError`s the source raises.  `noJsonFound` is
"No JSON object found in response." (no `\x7b` in the text);
`malformedJson` is "No valid JSON object found in response." (the brace
scan found no balanced block, or its single parse attempt failed). -/
inductive ExtractErr : Type where
  | noJsonFound : ExtractErr
  | malformedJson : ExtractErr
  deriving Repr, DecidableEq

/-- The brace-counting scan of `extract_first_json_block`, lines 78-88:
starting at the first `\x7b` of the text, walk forward keeping a signed
brace count; when a `\x7d` returns the count to zero, report the length of
the block up to and including it.  The count is over raw characters —
braces inside string literals are not special-cased, exactly as in the
source. -/
def scanLen : List Char → Int → Option Nat
  | [], _ => none
  | c :: rest, depth =>
    if c = '{' then (scanLen rest (depth + 1)).map (· + 1)
    else if c = '}' then
      if depth - 1 = 0 then some 1
      else (scanLen rest (depth - 1)).map (· + 1)
    else (scanLen rest depth).map (· + 1)

/-- `LLMProcessor.extract_first_json_block` (llm_processor.py 74-89):
`text.find('\x7b')` then the brace scan; one `json.loads` attempt on the
balanced block; `ValueError` otherwise. -/
def extract_first_json_block (text : List Char) : Except ExtractErr Json :=
  let tail := text.dropWhile (fun c => ¬ c = '{')
  if tail.isEmpty then .error .noJsonFound
  else
    match scanLen tail 0 with
    | none => .error .malformedJson
    | some n =>
      match json_loads (tail.take n) with
      | some j => .ok j
      | none => .error .malformedJson

section PythonSemantics

/-- Python exception classes that the pipeline can raise or catch.
`nameError` stands for `UnboundLocalError` (a `NameError` subclass);
`validationError` stands for pydantic's `ValidationError` (a `ValueError`
subclass in both pydantic 1 and 2); `serviceError` stands for exceptions
propagating out of external calls (requests errors, the explicit
`Exception` on non-200 responses, transcription failures, calendar
failures). -/
inductive PyErr : Type where
  | valueError : PyErr
  | typeError : PyErr
  | keyError : PyErr
  | attributeError : PyErr
  | nameError : PyErr
  | validationError : PyErr
  | serviceError : PyErr
  deriving Repr, DecidableEq

/-- The exception classes caught by `except (ValueError, KeyError)` in the
calendar-event candidate loop (llm_processor.py 305): `ValueError` and its
subclass pydantic `ValidationError`, and `KeyError`. -/
def PyErr.catchableInEventLoop : PyErr → Bool
  | .valueError => true
  | .validationError => true
  | .keyError => true
  | _ => false

/-- Python truthiness of a JSON-shaped value. -/
def truthy : Json → Bool
  | .null => false
  | .bool b => b
  | .num n => ¬ n = 0
  | .str s => ¬ s.isEmpty
  | .arr a => match a with | .nil => false | _ => true
  | .obj o => match o with | .nil => false | _ => true

/-- `for x in v`: Python iteration over a JSON-shaped value.  Lists yield
elements, dicts yield their keys, strings yield one-character strings;
numbers, booleans and `None` raise `TypeError`. -/
def pyIter : Json → Except PyErr (List Json)
  | .arr a => .ok a.toList
  | .obj o => .ok (o.keys.map .str)
  | .str s => .ok (s.map (fun c => .str [c]))
  | _ => .error .typeError

/-- `v.get(key)`: `AttributeError` unless `v` is a dict. -/
def pyGet (v : Json) (key : List Char) : Except PyErr (Option Json) :=
  match v with
  | .obj o => .ok (o.get key)
  | _ => .error .attributeError

/-- `v.get(key, default)` on a value already known to be a dict. -/
def objGetD (o : JsonObj) (key : List Char) (dflt : Json) : Json :=
  match o.get key with
  | some v => v
  | none => dflt

/-- `v[key]`: `TypeError` unless `v` is a dict (string/list/number
subscripts with a string key all raise `TypeError`), `KeyError` when the
key is absent. -/
def pyIndex (v : Json) (key : List Char) : Except PyErr Json :=
  match v with
  | .obj o =>
    match o.get key with
    | some x => .ok x
    | none => .error .keyError
  | _ => .error .typeError

/-- Pydantic validation of a `str` field given a JSON-shaped value. -/
def vStr (v : Json) : Except PyErr (List Char) :=
  match v with
  | .str s => .ok s
  | _ => .error .validationError

/-- Pydantic validation of an `Optional[str]` field. -/
def vOptStr (v : Json) : Except PyErr (Option (List Char)) :=
  match v with
  | .null => .ok none
  | .str s => .ok (some s)
  | _ => .error .validationError

/-- Element-wise pydantic validation of the members of a JSON array
against `str`. -/
def vStrArr : JsonArr → Except PyErr (List (List Char))
  | .nil => .ok []
  | .cons x tl =>
    match vStr x with
    | .error e => .error e
    | .ok s =>
      match vStrArr tl with
      | .error e => .error e
      | .ok r => .ok (s :: r)

/-- Pydantic validation of a `List[str]` field. -/
def vStrList (v : Json) : Except PyErr (List (List Char)) :=
  match v with
  | .arr a => vStrArr a
  | _ => .error .validationError

/-- Python `str.strip()` whitespace (the six ASCII whitespace chars). -/
def pyWsCh (c : Char) : Bool :=
  c = ' ' || c = '\t' || c = '\n' || c = '\r' || c = '\x0b' || c = '\x0c'

/-- Python `str.strip()`. -/
def pyStrip (s : List Char) : List Char :=
  ((s.dropWhile pyWsCh).reverse.dropWhile pyWsCh).reverse

/-- Python `str.lower()` (ASCII case fold; the texts involved are ASCII). -/
def pyLower (s : List Char) : List Char := s.map Char.toLower

end PythonSemantics

section DatetimeModel

/-- A Python `datetime` value (date and wall-clock time). -/
structure PyDateTime : Type where
  year : Nat
  month : Nat
  day : Nat
  hour : Nat
  minute : Nat
  second : Nat
  deriving Repr, DecidableEq

/-- Strict `datetime` comparison `a < b` (field-lexicographic, as in
Python). -/
def PyDateTime.lt (a b : PyDateTime) : Bool :=
  if a.year ≠ b.year then a.year < b.year
  else if a.month ≠ b.month then a.month < b.month
  else if a.day ≠ b.day then a.day < b.day
  else if a.hour ≠ b.hour then a.hour < b.hour
  else if a.minute ≠ b.minute then a.minute < b.minute
  else a.second < b.second

/-- Gregorian leap-year rule used by `datetime`. -/
def isLeapYear (y : Nat) : Bool :=
  (y % 4 = 0 && y % 100 ≠ 0) || y % 400 = 0

/-- Days in a month, as validated by the `datetime` constructor. -/
def daysInMonth (y m : Nat) : Nat :=
  if m = 2 then (if isLeapYear y then 29 else 28)
  else if m = 4 ∨ m = 6 ∨ m = 9 ∨ m = 11 then 30
  else 31

/-- Split a leading run of ASCII digits and return its length, its value
and the remaining input. -/
def takeDigits (cs : List Char) : Nat × Nat × List Char :=
  let ds := cs.takeWhile Char.isDigit
  (ds.length, ds.foldl (fun a c => 10 * a + (c.toNat - 48)) 0, cs.dropWhile Char.isDigit)

/-- `strptime` `%Y`: exactly four digits, and the `datetime` constructor
additionally requires year ≥ 1. -/
def parseYear (cs : List Char) : Option (Nat × List Char) :=
  let (len, v, rest) := takeDigits cs
  if len = 4 ∧ 1 ≤ v then some (v, rest) else none

/-- `strptime` one- or two-digit numeric field with an inclusive value
range, equivalent to the `_strptime` alternation regexes for
`%m`/`%d`/`%H`/`%M`/`%S` followed by a non-digit. -/
def parseField2 (lo hi : Nat) (cs : List Char) : Option (Nat × List Char) :=
  let (len, v, rest) := takeDigits cs
  if (len = 1 ∨ len = 2) ∧ lo ≤ v ∧ v ≤ hi then some (v, rest) else none

/-- Literal separator character in a `strptime` format. -/
def parseLit (c : Char) (cs : List Char) : Option (List Char) :=
  match cs with
  | d :: rest => if d = c then some rest else none
  | [] => none

/-- A whitespace gap in a `strptime` format (matches one or more
whitespace characters). -/
def parseGap (cs : List Char) : Option (List Char) :=
  match cs with
  | d :: rest => if pyWsCh d then some (rest.dropWhile pyWsCh) else none
  | [] => none

/-- `datetime.strptime(s, "%Y-%m-%d")`, including the date-validity check
performed by the `datetime` constructor; the whole string must be
consumed. -/
def strptimeDate (cs : List Char) : Option PyDateTime :=
  match parseYear cs with
  | none => none
  | some (y, r1) =>
    match parseLit '-' r1 with
    | none => none
    | some r2 =>
      match parseField2 1 12 r2 with
      | none => none
      | some (mo, r3) =>
        match parseLit '-' r3 with
        | none => none
        | some r4 =>
          match parseField2 1 31 r4 with
          | none => none
          | some (d, r5) =>
            if r5.isEmpty ∧ d ≤ daysInMonth y mo then
              some ⟨y, mo, d, 0, 0, 0⟩
            else none

/-- Shared date-and-time prefix `%Y-%m-%d %H:%M` of the two accepted
calendar-event formats; returns the remaining input. -/
def strptimePrefix (cs : List Char) : Option (PyDateTime × List Char) :=
  match parseYear cs with
  | none => none
  | some (y, r1) =>
    match parseLit '-' r1 with
    | none => none
    | some r2 =>
      match parseField2 1 12 r2 with
      | none => none
      | some (mo, r3) =>
        match parseLit '-' r3 with
        | none => none
        | some r4 =>
          match parseField2 1 31 r4 with
          | none => none
          | some (d, r5) =>
            if ¬ d ≤ daysInMonth y mo then none
            else
              match parseGap r5 with
              | none => none
              | some r6 =>
                match parseField2 0 23 r6 with
                | none => none
                | some (h, r7) =>
                  match parseLit ':' r7 with
                  | none => none
                  | some r8 =>
                    match parseField2 0 59 r8 with
                    | none => none
                    | some (mi, r9) => some (⟨y, mo, d, h, mi, 0⟩, r9)

/-- `LLMProcessor.parse_datetime` (llm_processor.py 211-217): try
`"%Y-%m-%d %H:%M"`, then `"%Y-%m-%d %H:%M:%S"`, else `ValueError`. -/
def parse_datetime (cs : List Char) : Except PyErr PyDateTime :=
  match strptimePrefix cs with
  | none => .error .valueError
  | some (dt, rest) =>
    if rest.isEmpty then .ok dt
    else
      match parseLit ':' rest with
      | none => .error .valueError
      | some r =>
        match parseField2 0 59 r with
        | none => .error .valueError
        | some (s, r2) =>
          if r2.isEmpty then .ok { dt with second := s }
          else .error .valueError

end DatetimeModel

section DataModel

/-- `models.Speaker`.  `role` and `confidence` never influence any modelled
operation (only `speaker_id` is read or written) and are omitted;
`confidence` is a float. -/
structure Speaker : Type where
  speaker_id : List Char
  name : Option (List Char)
  deriving Repr, DecidableEq

/-- `models.TranscriptionSegment`; `stop` models the Python field `end`
(a reserved word in Lean); `confidence` (float, unused) omitted. -/
structure TranscriptionSegment : Type where
  start : Nat
  stop : Nat
  speaker : List Char
  text : List Char
  deriving Repr, DecidableEq

/-- `models.MeetingTranscript`; `created_at` is an opaque timestamp. -/
structure MeetingTranscript : Type where
  meeting_id : List Char
  audio_url : List Char
  duration : Nat
  speakers : List Speaker
  segments : List TranscriptionSegment
  created_at : Nat
  deriving Repr, DecidableEq

/-- `models.ActionItem`. -/
structure ActionItem : Type where
  description : List Char
  assignee : Option (List Char)
  due_date : Option PyDateTime
  priority : List Char
  status : List Char
  deriving Repr, DecidableEq

/-- `models.Decision`. -/
structure Decision : Type where
  topic : List Char
  decision : List Char
  rationale : Option (List Char)
  impact : Option (List Char)
  deriving Repr, DecidableEq

/-- `models.MeetingMinutes`; `duration_ms` models the
`timedelta(milliseconds=transcript.duration)` value by its millisecond
count, `date` the transcript's opaque `created_at` timestamp. -/
structure MeetingMinutes : Type where
  meeting_id : List Char
  date : Nat
  duration_ms : Nat
  participants : List (List Char)
  key_points : List (List Char)
  action_items : List ActionItem
  decisions : List Decision
  next_steps : List (List Char)
  summary : List Char
  deriving Repr, DecidableEq

/-- `models.CalendarEvent`; the `reminders` field is a constant default
dictionary never varied by the pipeline and is omitted. -/
structure CalendarEvent : Type where
  summary : List Char
  description : List Char
  start_time : PyDateTime
  end_time : PyDateTime
  attendees : List (List Char)
  location : Option (List Char)
  deriving Repr, DecidableEq

/-- `models.ProcessingStatus`. -/
inductive ProcessingStatus : Type where
  | pending : ProcessingStatus
  | processing : ProcessingStatus
  | completed : ProcessingStatus
  | failed : ProcessingStatus
  deriving Repr, DecidableEq

/-- `models.ProcessingResult`; `error_message` holds the exception whose
`str(e)` the source stores, `processing_time` the elapsed seconds. -/
structure ProcessingResult : Type where
  status : ProcessingStatus
  meeting_id : List Char
  transcript : Option MeetingTranscript
  minutes : Option MeetingMinutes
  calendar_events : List CalendarEvent
  error_message : Option PyErr
  processing_time : Option Nat
  deriving Repr, DecidableEq

end DataModel

section LlmProcessor

/-- The JSON field names used by the pipeline, as character lists. -/
def kKeyPoints : List Char := "key_points".toList

def kActionItems : List Char := "action_items".toList

def kDecisions : List Char := "decisions".toList

def kNextSteps : List Char := "next_steps".toList

def kSummary : List Char := "summary".toList

def kDueDate : List Char := "due_date".toList

def kDescription : List Char := "description".toList

def kAssignee : List Char := "assignee".toList

def kPriority : List Char := "priority".toList

def kTopic : List Char := "topic".toList

def kDecisionTxt : List Char := "decision".toList

def kRationale : List Char := "rationale".toList

def kEvents : List Char := "events".toList

def kStartTime : List Char := "start_time".toList

def kEndTime : List Char := "end_time".toList

def kAttendees : List Char := "attendees".toList

def kLocation : List Char := "location".toList

/-- Lift a list of JSON values back into a JSON array. -/
def listToArr : List Json → JsonArr
  | [] => .nil
  | x :: tl => .cons x (listToArr tl)

/-- The second bullet prefix in `_fallback_parsing` exactly as the source
file encodes it: the three characters `â`, `€`, `¢` (a mojibake rendering
of the bullet glyph). -/
def bulletMoji : List Char := ['â', '€', '¢']

/-- `line.startswith(('-', 'â€¢', '*')) and len(line) > 2` on an
already-stripped line (llm_processor.py 362). -/
def isBulletLine (l : List Char) : Bool :=
  (l.take 1 = ['-'] || l.take 3 = bulletMoji || l.take 1 = ['*']) && 2 < l.length

/-- Python `response.split('\n')` (empty pieces preserved). -/
def pySplitNl (s : List Char) : List (List Char) :=
  s.foldr
    (fun c acc =>
      if c = '\n' then [] :: acc
      else
        match acc with
        | ln :: rest => (c :: ln) :: rest
        | [] => [[c]])
    [[]]

/-- The key points collected by `_fallback_parsing` (llm_processor.py
360-363): stripped lines starting with a bullet marker, first character
dropped, stripped again. -/
def fallbackKeyPoints (response : List Char) : List (List Char) :=
  (pySplitNl response).filterMap fun line =>
    let l := pyStrip line
    if isBulletLine l then some (pyStrip (l.drop 1)) else none

/-- Characters matched by `[:\s]` in the fallback summary regex. -/
def sepCh (c : Char) : Bool := c = ':' || pyWsCh c

/-- Attempt of the regex `summary[:\s]+(.+?)(?:\n|$)` tail just after a
matched `summary` keyword: a nonempty separator run, then a lazily-matched
nonempty capture of non-newline characters.  When the separator run extends
to the end of the string the engine backtracks into it, capturing the last
separator character that is not a newline. -/
def summaryCapture (after : List Char) : Option (List Char) :=
  let sep := after.takeWhile sepCh
  if sep.isEmpty then none
  else
    match after.dropWhile sepCh with
    | [] =>
      match ((sep.drop 1).filter (fun c => ¬ c = '\n')).getLast? with
      | some c => some [c]
      | none => none
    | rest => some (rest.takeWhile (fun c => ¬ c = '\n'))

/-- `re.search(r'summary[:\s]+(.+?)(?:\n|$)', response, re.IGNORECASE)`:
leftmost position where the case-insensitive keyword plus tail match;
returns the capture group. -/
def searchSummary : List Char → Option (List Char)
  | [] => none
  | c :: rest =>
    if pyLower ((c :: rest).take 7) = "summary".toList then
      match summaryCapture ((c :: rest).drop 7) with
      | some cap => some cap
      | none => searchSummary rest
    else searchSummary rest

/-- Python `pat in s` substring containment. -/
def hasInfix (pat : List Char) : List Char → Bool
  | [] => pat.isEmpty
  | c :: tl => if List.take pat.length (c :: tl) = pat then true else hasInfix pat tl

/-- The summary extracted by `_fallback_parsing` (llm_processor.py
365-369). -/
def fallback_summary (response : List Char) : List Char :=
  if hasInfix "summary".toList (pyLower response) then
    match searchSummary response with
    | some cap => pyStrip cap
    | none => []
  else []

/-- `LLMProcessor._fallback_parsing` (llm_processor.py 340-377): the
heuristic dictionary built when JSON extraction fails. -/
def fallback_parsing (response : List Char) : Json :=
  .obj
    (.cons kKeyPoints (.arr (listToArr ((fallbackKeyPoints response).map .str)))
      (.cons kActionItems (.arr .nil)
        (.cons kDecisions (.arr .nil)
          (.cons kNextSteps (.arr .nil)
            (.cons kSummary (.str (fallback_summary response)) .nil)))))

/-- One iteration of the action-item loop (llm_processor.py 158-171): the
`due_date` truthiness check and parse (with `except ValueError: pass`; a
non-string truthy value reaches `strptime` and raises `TypeError`), the
`.get` field reads, and the pydantic `ActionItem` validation.  A non-dict
item raises `AttributeError` at `item.get("due_date")`. -/
def buildActionItem (item : Json) : Except PyErr ActionItem :=
  match item with
  | .obj o => do
    let ddJson := objGetD o kDueDate .null
    let due ←
      if truthy ddJson then
        match ddJson with
        | .str s => pure (strptimeDate s)
        | _ => throw PyErr.typeError
      else pure none
    let desc ← vStr (objGetD o kDescription (.str []))
    let assignee ← vOptStr (objGetD o kAssignee .null)
    let priority ← vStr (objGetD o kPriority (.str ("medium".toList)))
    pure ⟨desc, assignee, due, priority, "pending".toList⟩
  | _ => .error .attributeError

/-- One iteration of the decisions loop (llm_processor.py 175-180). -/
def buildDecision (d : Json) : Except PyErr Decision :=
  match d with
  | .obj o => do
    let topic ← vStr (objGetD o kTopic (.str []))
    let dec ← vStr (objGetD o kDecisionTxt (.str []))
    let rat ← vOptStr (objGetD o kRationale .null)
    pure ⟨topic, dec, rat, none⟩
  | _ => .error .attributeError

/-- `list(set(...))` over segment speakers; Python set iteration order is
unspecified, modelled as first-occurrence order. -/
def dedup (l : List (List Char)) : List (List Char) :=
  l.foldl (fun acc x => if x ∈ acc then acc else acc ++ [x]) []

/-- `LLMProcessor.generate_meeting_minutes` (llm_processor.py 91-209).
`callResult` is the outcome of `_call_ollama` (the prompt does not affect
the model); its exception, and any exception of the post-processing, is
re-raised by the outer `except` (line 207-209). -/
def generate_meeting_minutes (callResult : Except PyErr (List Char))
    (t : MeetingTranscript) : Except PyErr MeetingMinutes :=
  match callResult with
  | .error e => .error e
  | .ok response =>
    let parsed : Json :=
      match extract_first_json_block response with
      | .ok j => j
      | .error _ => fallback_parsing response
    match parsed with
    | .obj po => do
      let items ← pyIter (objGetD po kActionItems (.arr .nil))
      let action_items ← items.mapM buildActionItem
      let decs ← pyIter (objGetD po kDecisions (.arr .nil))
      let decisions ← decs.mapM buildDecision
      let participants := dedup (t.segments.map (·.speaker))
      let kpRaw := objGetD po kKeyPoints .null
      let nsRaw := objGetD po kNextSteps .null
      let key_points ← vStrList (if truthy kpRaw then kpRaw else .arr .nil)
      let next_steps ← vStrList (if truthy nsRaw then nsRaw else .arr .nil)
      let summary ← vStr (objGetD po kSummary (.str []))
      pure ⟨t.meeting_id, t.created_at, t.duration, participants, key_points,
        action_items, decisions, next_steps, summary⟩
    | _ => .error .attributeError

/-- One iteration of the calendar-event candidate loop (llm_processor.py
292-307): subscript reads of the two timestamps (`TypeError` on a non-dict
candidate, `KeyError` on a missing key, `TypeError` from `strptime` on a
non-string value), `parse_datetime` on each, then the pydantic
`CalendarEvent` validation. -/
def buildEvent (c : Json) : Except PyErr CalendarEvent := do
  let sv ← pyIndex c kStartTime
  let st ←
    match sv with
    | .str s => parse_datetime s
    | _ => throw PyErr.typeError
  let ev ← pyIndex c kEndTime
  let en ←
    match ev with
    | .str s => parse_datetime s
    | _ => throw PyErr.typeError
  match c with
  | .obj o => do
    let summary ← vStr (objGetD o kSummary (.str []))
    let description ← vStr (objGetD o kDescription (.str []))
    let attendees ← vStrList (objGetD o kAttendees (.arr .nil))
    let location ← vOptStr (objGetD o kLocation .null)
    pure ⟨summary, description, st, en, attendees, location⟩
  | _ => throw PyErr.typeError

/-- The candidate loop with its `except (ValueError, KeyError): continue`:
a caught exception drops the candidate and continues; any other exception
propagates (and is later converted to an empty result by the outer
handler). -/
def processEvents : List Json → Except PyErr (List CalendarEvent)
  | [] => .ok []
  | c :: rest =>
    match buildEvent c with
    | .ok ev =>
      match processEvents rest with
      | .ok evs => .ok (ev :: evs)
      | .error e => .error e
    | .error e =>
      if e.catchableInEventLoop then processEvents rest
      else .error e

/-- `LLMProcessor.extract_calendar_events` (llm_processor.py 219-314).
The transcript and minutes arguments only shape the prompt and never the
result given the response oracle; the outer `except Exception` converts
any propagated error — including a failed completion call — into `[]`. -/
def extract_calendar_events (callResult : Except PyErr (List Char))
    (_t : MeetingTranscript) (_minutes : Option MeetingMinutes) : List CalendarEvent :=
  match callResult with
  | .error _ => []
  | .ok response =>
    match extract_first_json_block response with
    | .error _ => []
    | .ok parsed =>
      let evsVal :=
        match parsed with
        | .obj o => objGetD o kEvents (.arr .nil)
        | _ => .null
      match pyIter evsVal with
      | .error _ => []
      | .ok cands =>
        match processEvents cands with
        | .ok evs => evs
        | .error _ => []

/-- The validation loop of `infer_speaker_names` (llm_processor.py
428-431): keys of a parsed JSON object are always strings, so an entry is
kept exactly when its value is a string. -/
def validateMapping : JsonObj → List (List Char × List Char)
  | .nil => []
  | .cons k v tl =>
    match v with
    | .str s => (k, s) :: validateMapping tl
    | _ => validateMapping tl

/-- Dictionary lookup in a label→name mapping (last binding wins, as in a
Python dict built by repeated insertion). -/
def lookupMap (m : List (List Char × List Char)) (k : List Char) : Option (List Char) :=
  match m with
  | [] => none
  | (k', v) :: rest =>
    match lookupMap rest k with
    | some r => some r
    | none => if k' = k then some v else none

/-- `LLMProcessor.infer_speaker_names` (llm_processor.py 379-439).  When
the completion call itself raises, the `except` block's
`print(f"Raw response: \x7bresponse\x7d")` references the never-assigned
local `response` and raises `UnboundLocalError` (modelled `nameError`);
when the response is bound, any parse failure is swallowed and the empty
mapping returned. -/
def infer_speaker_names (callResult : Except PyErr (List Char))
    (_t : MeetingTranscript) : Except PyErr (List (List Char × List Char)) :=
  match callResult with
  | .error _ => .error .nameError
  | .ok response =>
    match extract_first_json_block response with
    | .error _ => .ok []
    | .ok j =>
      match j with
      | .obj o => .ok (validateMapping o)
      | _ => .ok []

/-- Independent validation of a single calendar-event candidate: the
event it yields when its build succeeds, `none` when it is dropped.  Used
to state which candidates survive the loop. -/
def validateCandidate (c : Json) : Option CalendarEvent :=
  match buildEvent c with
  | .ok ev => some ev
  | .error _ => none

/-- A candidate that cannot abort the whole extraction: a dict whose
`start_time` and `end_time` values, when present, are strings.  (A
non-dict candidate or a non-string timestamp raises `TypeError`, which the
loop's `except (ValueError, KeyError)` does not catch.) -/
def tameCandidate (c : Json) : Bool :=
  match c with
  | .obj o =>
    (match o.get kStartTime with
     | some (.str _) => true
     | none => true
     | _ => false) &&
    (match o.get kEndTime with
     | some (.str _) => true
     | none => true
     | _ => false)
  | _ => false

end LlmProcessor

section AiAgent

/-- Application of the label→name map to one identifier: replaced when the
(pre-relabel) identifier is a key, unchanged otherwise. -/
def applyMap (m : List (List Char × List Char)) (s : List Char) : List Char :=
  match lookupMap m s with
  | some v => v
  | none => s

/-- The relabeling step of `AIAgent.process_meeting` (ai_agent.py 66-73):
one in-place pass over the segments and one over the speakers, each entry
looked up against its current identifier exactly once. -/
def relabelTranscript (m : List (List Char × List Char))
    (t : MeetingTranscript) : MeetingTranscript :=
  { t with
    segments := t.segments.map (fun seg => { seg with speaker := applyMap m seg.speaker })
    speakers := t.speakers.map (fun sp => { sp with speaker_id := applyMap m sp.speaker_id }) }

/-- The guarded relabel step (ai_agent.py 64-79): `if speaker_map:` —
relabeling is applied only when the inferred mapping is nonempty. -/
def relabelApplied (m : List (List Char × List Char))
    (t : MeetingTranscript) : MeetingTranscript :=
  if m.isEmpty then t else relabelTranscript m t

/-- The guarded calendar-service call (ai_agent.py 92-95 and 191-193):
`if calendar_events:` — the external batch call happens only when at
least one event was extracted. -/
def maybeCreateEvents (evs : List CalendarEvent)
    (createR : Except PyErr Nat) : Except PyErr Nat :=
  if evs.isEmpty then .ok 0 else createR

/-- The `ProcessingResult` created at the start of every entry point. -/
def initialResult (meeting_id : List Char) : ProcessingResult :=
  { status := .processing, meeting_id := meeting_id, transcript := none,
    minutes := none, calendar_events := [], error_message := none,
    processing_time := none }

/-- `AIAgent.process_meeting` (ai_agent.py 32-110).  External outcomes are
oracles: `transcribeR` the transcription stage, `inferResp`/`minutesResp`/
`eventsResp` the three completion calls, `createR` the calendar-service
batch call (reached only when events exist).  `elapsed` is the measured
wall-clock duration.  `result.transcript` is assigned before relabeling
and aliases the transcript object, so it reflects the in-place relabel. -/
def process_meeting (transcribeR : Except PyErr MeetingTranscript)
    (inferResp minutesResp eventsResp : Except PyErr (List Char))
    (createR : Except PyErr Nat) (meeting_id : List Char) (elapsed : Nat) :
    ProcessingResult :=
  let r0 := initialResult meeting_id
  match transcribeR with
  | .error e =>
    { r0 with
      status := .failed
      error_message := some e
      processing_time := some elapsed }
  | .ok t =>
    match infer_speaker_names inferResp t with
    | .error e =>
      { r0 with
        transcript := some t
        status := .failed
        error_message := some e
        processing_time := some elapsed }
    | .ok m =>
      let t2 := relabelApplied m t
      match generate_meeting_minutes minutesResp t2 with
      | .error e =>
        { r0 with
          transcript := some t2
          status := .failed
          error_message := some e
          processing_time := some elapsed }
      | .ok mins =>
        let evs := extract_calendar_events eventsResp t2 (some mins)
        match maybeCreateEvents evs createR with
        | .error e =>
          { r0 with
            transcript := some t2
            minutes := some mins
            calendar_events := evs
            status := .failed
            error_message := some e
            processing_time := some elapsed }
        | .ok _ =>
          { r0 with
            transcript := some t2
            minutes := some mins
            calendar_events := evs
            status := .completed
            processing_time := some elapsed }

/-- `AIAgent.generate_minutes_only` (ai_agent.py 112-156): transcription
then minutes generation, no speaker inference, no relabeling, no events. -/
def generate_minutes_only (transcribeR : Except PyErr MeetingTranscript)
    (minutesResp : Except PyErr (List Char)) (meeting_id : List Char)
    (elapsed : Nat) : ProcessingResult :=
  let r0 := initialResult meeting_id
  match transcribeR with
  | .error e =>
    { r0 with
      status := .failed
      error_message := some e
      processing_time := some elapsed }
  | .ok t =>
    match generate_meeting_minutes minutesResp t with
    | .error e =>
      { r0 with
        transcript := some t
        status := .failed
        error_message := some e
        processing_time := some elapsed }
    | .ok mins =>
      { r0 with
        transcript := some t
        minutes := some mins
        status := .completed
        processing_time := some elapsed }

/-- `AIAgent.extract_events_only` (ai_agent.py 158-207): transcription
then event extraction (minutes argument `None`), no speaker inference, no
relabeling. -/
def extract_events_only (transcribeR : Except PyErr MeetingTranscript)
    (eventsResp : Except PyErr (List Char)) (createR : Except PyErr Nat)
    (meeting_id : List Char) (elapsed : Nat) : ProcessingResult :=
  let r0 := initialResult meeting_id
  match transcribeR with
  | .error e =>
    { r0 with
      status := .failed
      error_message := some e
      processing_time := some elapsed }
  | .ok t =>
    let evs := extract_calendar_events eventsResp t none
    match maybeCreateEvents evs createR with
    | .error e =>
      { r0 with
        transcript := some t
        calendar_events := evs
        status := .failed
        error_message := some e
        processing_time := some elapsed }
    | .ok _ =>
      { r0 with
        transcript := some t
        calendar_events := evs
        status := .completed
        processing_time := some elapsed }

/-- `AIAgent.generate_transcript_only` (ai_agent.py 209-249). -/
def generate_transcript_only (transcribeR : Except PyErr MeetingTranscript)
    (meeting_id : List Char) (elapsed : Nat) : ProcessingResult :=
  let r0 := initialResult meeting_id
  match transcribeR with
  | .error e =>
    { r0 with
      status := .failed
      error_message := some e
      processing_time := some elapsed }
  | .ok t =>
    { r0 with
      transcript := some t
      status := .completed
      processing_time := some elapsed }

end AiAgent

section Contracts

/-- The result contract shared by the four entry points: a terminal
status, a populated elapsed time, and an error message whenever the run
failed. -/
def resultContract (r : ProcessingResult) (elapsed : Nat) : Prop :=
  (r.status = .completed ∨ r.status = .failed) ∧
  r.processing_time = some elapsed ∧
  (match r.status with
   | .failed => r.error_message.isSome = true
   | _ => True)

/-- A concrete label→name map used to instantiate hypotheses. -/
def exMap : List (List Char × List Char) := [("A".toList, "John".toList)]

/-- A concrete two-speaker transcript used to instantiate hypotheses. -/
def exTranscript : MeetingTranscript :=
  { meeting_id := "m1".toList
    audio_url := "a.wav".toList
    duration := 9000
    speakers := [⟨"A".toList, none⟩, ⟨"B".toList, none⟩]
    segments :=
      [⟨0, 5000, "A".toList, "Hi, I am John".toList⟩,
       ⟨5000, 9000, "B".toList, "Thanks John".toList⟩]
    created_at := 17 }

end Contracts

/-- Possible first characters of a serialized JSON value. -/
def valueHead (c : Char) : Prop :=
  c = 'n' ∨ c = 't' ∨ c = 'f' ∨ c = '"' ∨ c = '[' ∨ c = '{' ∨ c = '-' ∨ c.isDigit = true

section Helpers

theorem participants_of_generate_ok {resp : Except PyErr (List Char)}
    {t : MeetingTranscript} {m : MeetingMinutes}
    (h : generate_meeting_minutes resp t = .ok m) :
    m.participants = dedup (t.segments.map TranscriptionSegment.speaker) ∧
    m.meeting_id = t.meeting_id ∧ m.date = t.created_at := by
  unfold generate_meeting_minutes at h
  cases resp with
  | error e => exact absurd h (by simp)
  | ok response =>
    simp only [bind, Except.bind] at h
    split at h
    case h_2 => exact absurd h (by simp)
    repeat (split at h; try exact absurd h (by simp))
    cases h
    simp

theorem vStr_err {v : Json} {e : PyErr} (h : vStr v = .error e) : e = .validationError := by
  cases v <;> simp_all [vStr]

theorem vOptStr_err {v : Json} {e : PyErr} (h : vOptStr v = .error e) : e = .validationError := by
  cases v <;> simp_all [vOptStr]

theorem vStrArr_err : ∀ {a : JsonArr} {e : PyErr}, vStrArr a = .error e → e = .validationError
  | .nil, e, h => by simp [vStrArr] at h
  | .cons x tl, e, h => by
    unfold vStrArr at h
    cases hx : vStr x with
    | error e2 => rw [hx] at h; cases h; exact vStr_err hx
    | ok s =>
      rw [hx] at h
      cases htl : vStrArr tl with
      | error e2 => rw [htl] at h; cases h; exact vStrArr_err htl
      | ok r => rw [htl] at h; exact absurd h (by simp)

theorem vStrList_err {v : Json} {e : PyErr} (h : vStrList v = .error e) : e = .validationError := by
  cases v <;> simp_all [vStrList]
  case arr a => exact vStrArr_err h

theorem parse_datetime_err {s : List Char} {e : PyErr}
    (h : parse_datetime s = .error e) : e = .valueError := by
  unfold parse_datetime at h
  repeat' (split at h)
  all_goals simp_all

theorem buildEvent_err_catchable {c : Json} {e : PyErr}
    (htame : tameCandidate c = true) (h : buildEvent c = .error e) :
    e.catchableInEventLoop = true := by
  cases c with
  | obj o =>
    unfold tameCandidate at htame
    simp only [Bool.and_eq_true] at htame
    unfold buildEvent at h
    simp only [bind, Except.bind, pure, Except.pure, pyIndex] at h
    cases hst : JsonObj.get o kStartTime with
    | none => rw [hst] at h; cases h; rfl
    | some v =>
      rw [hst] at h
      rw [hst] at htame
      cases v <;> try simp_all
      case str s =>
        cases hps : parse_datetime s with
        | error pe => rw [hps] at h; cases h; rw [parse_datetime_err hps]; rfl
        | ok st =>
          rw [hps] at h
          cases hen : JsonObj.get o kEndTime with
          | none => rw [hen] at h; cases h; rfl
          | some w =>
            rw [hen] at h
            rw [hen] at htame
            cases w <;> try simp_all
            case str s2 =>
              cases hpe : parse_datetime s2 with
              | error pe => rw [hpe] at h; cases h; rw [parse_datetime_err hpe]; rfl
              | ok en =>
                rw [hpe] at h
                cases hsum : vStr (objGetD o kSummary (.str [])) with
                | error ve => rw [hsum] at h; cases h; rw [vStr_err hsum]; rfl
                | ok sm =>
                  rw [hsum] at h
                  cases hdsc : vStr (objGetD o kDescription (.str [])) with
                  | error ve => rw [hdsc] at h; cases h; rw [vStr_err hdsc]; rfl
                  | ok dsc =>
                    rw [hdsc] at h
                    cases hatt : vStrList (objGetD o kAttendees (.arr .nil)) with
                    | error ve => rw [hatt] at h; cases h; rw [vStrList_err hatt]; rfl
                    | ok att =>
                      rw [hatt] at h
                      cases hloc : vOptStr (objGetD o kLocation Json.null) with
                      | error ve => rw [hloc] at h; cases h; rw [vOptStr_err hloc]; rfl
                      | ok loc => rw [hloc] at h; exact absurd h (by simp)
  | null => simp [tameCandidate] at htame
  | bool b => simp [tameCandidate] at htame
  | num n => simp [tameCandidate] at htame
  | str s => simp [tameCandidate] at htame
  | arr a => simp [tameCandidate] at htame

theorem vStrArr_of_strs (l : List (List Char)) :
    vStrArr (listToArr (l.map .str)) = .ok l := by
  induction l with
  | nil => rfl
  | cons x tl ih => simp [listToArr, vStrArr, vStr, ih]

theorem priority_of_vStr_ok {o : JsonObj} {pr : List Char}
    (hpr : vStr (objGetD o kPriority (.str ("medium".toList))) = .ok pr) :
    pr = (match o.get kPriority with
      | some (.str p) => p
      | _ => "medium".toList) := by
  simp only [objGetD] at hpr
  cases hget : JsonObj.get o kPriority with
  | none => rw [hget] at hpr; simp_all [vStr]
  | some v => rw [hget] at hpr; cases v <;> simp_all [vStr]

theorem digitChar_isDigit {d : Nat} (h : d < 10) : (Nat.digitChar d).isDigit = true := by
  interval_cases d <;> decide

theorem digitChar_toNat {d : Nat} (h : d < 10) : (Nat.digitChar d).toNat - 48 = d := by
  interval_cases d <;> decide

theorem digitChar_eq_zero {d : Nat} (h : d < 10) : (Nat.digitChar d = '0') ↔ d = 0 := by
  interval_cases d <;> simp <;> decide

theorem serNat_all_digits (n : Nat) : ∀ c ∈ serNat n, c.isDigit = true := by
  intro c hc
  unfold serNat at hc
  split at hc
  · simp at hc; subst hc; decide
  · simp only [List.mem_reverse, List.mem_map] at hc
    obtain ⟨d, hd, rfl⟩ := hc
    exact digitChar_isDigit (Nat.digits_lt_base (by norm_num) hd)

theorem serNat_ne_nil (n : Nat) : serNat n ≠ [] := by
  unfold serNat
  split
  · simp
  · simp [Nat.digits_ne_nil_iff_ne_zero, *]

theorem foldl_digitChars (ds : List Nat) (h : ∀ d ∈ ds, d < 10) (acc : Nat) :
    List.foldl (fun a c => 10 * a + (c.toNat - 48)) acc ((ds.map Nat.digitChar).reverse) =
      acc * 10 ^ ds.length + Nat.ofDigits 10 ds := by
  induction ds generalizing acc with
  | nil => simp
  | cons d tl ih =>
    have hd : d < 10 := h d (by simp)
    have htl : ∀ x ∈ tl, x < 10 := fun x hx => h x (by simp [hx])
    simp only [List.map_cons, List.reverse_cons, List.foldl_append, List.foldl_cons,
      List.foldl_nil, ih htl acc, Nat.ofDigits_cons, List.length_cons]
    rw [digitChar_toNat hd]
    ring

theorem serNat_head_ne_zero {n : Nat} (hn : n ≠ 0) : (serNat n).head? ≠ some '0' := by
  unfold serNat
  rw [if_neg hn]
  rw [List.head?_reverse]
  intro h
  have hne : (Nat.digits 10 n).map Nat.digitChar ≠ [] := by
    simp [Nat.digits_ne_nil_iff_ne_zero, hn]
  rw [List.getLast?_eq_getLast _ hne] at h
  rw [List.getLast_map] at h
  have hbound : (Nat.digits 10 n).getLast (by simp [Nat.digits_ne_nil_iff_ne_zero, hn]) < 10 :=
    Nat.digits_lt_base (by norm_num) (List.getLast_mem _)
  have hzero := (digitChar_eq_zero hbound).mp (by injection h)
  exact Nat.getLast_digit_ne_zero 10 hn hzero

theorem serNat_val (n : Nat) :
    (serNat n).foldl (fun a c => 10 * a + (c.toNat - 48)) 0 = n := by
  unfold serNat
  split
  · subst n
    rfl
  · rw [foldl_digitChars _ (fun d hd => Nat.digits_lt_base (by norm_num) hd) 0]
    simp [Nat.ofDigits_digits]

theorem takeWhile_all_append {p : Char → Bool} {l r : List Char}
    (hl : ∀ c ∈ l, p c = true) (hr : ∀ c, r.head? = some c → p c = false) :
    (l ++ r).takeWhile p = l ∧ (l ++ r).dropWhile p = r := by
  constructor
  · rw [List.takeWhile_append]
    rw [if_pos]
    · cases r with
      | nil => simp
      | cons c cs => simp [List.takeWhile_cons, hr c rfl]
    · rw [List.takeWhile_eq_self_iff.mpr hl]
  · rw [List.dropWhile_append]
    rw [List.dropWhile_eq_nil_iff.mpr hl]
    cases r with
    | nil => simp
    | cons c cs => simp [List.dropWhile_cons, hr c rfl]

theorem parseNum_serNat (n : Nat) (rest : List Char)
    (hrest : ∀ c, rest.head? = some c → c.isDigit = false) :
    parseNum (serNat n ++ rest) = some (n, rest) := by
  obtain ⟨htake, hdrop⟩ := takeWhile_all_append (serNat_all_digits n) hrest
  unfold parseNum
  simp only [htake, hdrop]
  rw [if_neg, if_neg]
  · rw [serNat_val]
  · intro hcon
    rcases hcon with ⟨hlen, hhead⟩
    by_cases hn : n = 0
    · subst hn
      simp [serNat] at hlen
    · exact serNat_head_ne_zero hn hhead
  · simp [serNat_ne_nil n]

theorem parseStrBody_cons_verbatim {c : Char} {rest : List Char}
    (h1 : ¬ c = '"') (h2 : ¬ c = '\\') (h3 : ¬ c.toNat < 32) :
    parseStrBody (c :: rest) =
      match parseStrBody rest with
      | none => none
      | some (s, r) => some (c :: s, r) := by
  cases rest <;> simp [parseStrBody, h1, h2, h3]

theorem parseStrBody_escStr (s : List Char) (hs : s.all charOk = true) (r : List Char) :
    parseStrBody (escStr s ++ '"' :: r) = some (s, r) := by
  induction s with
  | nil => simp [escStr, parseStrBody]
  | cons c cs ih =>
    simp only [List.all_cons, Bool.and_eq_true] at hs
    have ihc := ih hs.2
    simp only [escStr, List.flatMap_cons] at ihc ⊢
    by_cases h1 : c = '"'
    · subst h1
      rw [show escChar '"' = ['\\', '"'] from rfl]
      simp [parseStrBody, unescape, ihc]
    · by_cases h2 : c = '\\'
      · subst h2
        rw [show escChar '\\' = ['\\', '\\'] from rfl]
        simp [parseStrBody, unescape, ihc]
      · by_cases h3 : c = '\n'
        · subst h3
          rw [show escChar '\n' = ['\\', 'n'] from rfl]
          simp [parseStrBody, unescape, ihc]
        · by_cases h4 : c = '\t'
          · subst h4
            rw [show escChar '\t' = ['\\', 't'] from rfl]
            simp [parseStrBody, unescape, ihc]
          · by_cases h5 : c = '\r'
            · subst h5
              rw [show escChar '\r' = ['\\', 'r'] from rfl]
              simp [parseStrBody, unescape, ihc]
            · by_cases h6 : c = '\x08'
              · subst h6
                rw [show escChar '\x08' = ['\\', 'b'] from rfl]
                simp [parseStrBody, unescape, ihc]
              · by_cases h7 : c = '\x0c'
                · subst h7
                  rw [show escChar '\x0c' = ['\\', 'f'] from rfl]
                  simp [parseStrBody, unescape, ihc]
                · have hesc : escChar c = [c] := by
                    unfold escChar
                    simp [h1, h2, h3, h4, h5, h6, h7]
                  rw [hesc]
                  have hge : ¬ c.toNat < 32 := by
                    have hc := hs.1
                    unfold charOk at hc
                    simp only [Bool.and_eq_true, Bool.or_eq_true, decide_eq_true_eq] at hc
                    rcases hc with ⟨⟨(((((h32 | h) | h) | h) | h) | h), _⟩, _⟩
                    · omega
                    all_goals simp_all
                  simp only [List.cons_append, List.nil_append, List.append_assoc]
                  rw [parseStrBody_cons_verbatim h1 h2 hge, ihc]

end Helpers

theorem serLit_head_cons (j : Json) :
    ∃ c t, serLit j = c :: t ∧ valueHead c := by
  cases j with
  | null => exact ⟨'n', _, rfl, Or.inl rfl⟩
  | bool b => cases b with
    | true => exact ⟨'t', _, rfl, Or.inr (Or.inl rfl)⟩
    | false => exact ⟨'f', _, rfl, Or.inr (Or.inr (Or.inl rfl))⟩
  | num n =>
    cases n with
    | ofNat m =>
      rcases hm : serNat m with _ | ⟨c, t⟩
      · exact absurd hm (serNat_ne_nil m)
      · refine ⟨c, t, by simp [serLit, serInt, hm], ?_⟩
        have := serNat_all_digits m c (by rw [hm]; simp)
        exact Or.inr (Or.inr (Or.inr (Or.inr (Or.inr (Or.inr (Or.inr this))))))
    | negSucc m =>
      exact ⟨'-', _, rfl, Or.inr (Or.inr (Or.inr (Or.inr (Or.inr (Or.inr (Or.inl rfl))))))⟩
  | str s => exact ⟨'"', _, rfl, Or.inr (Or.inr (Or.inr (Or.inl rfl)))⟩
  | arr a => exact ⟨'[', _, rfl, Or.inr (Or.inr (Or.inr (Or.inr (Or.inl rfl))))⟩
  | obj o => exact ⟨'{', _, rfl, Or.inr (Or.inr (Or.inr (Or.inr (Or.inr (Or.inl rfl)))))⟩

theorem valueHead_not_ws {c : Char} (h : valueHead c) : jsonWs c = false := by
  rcases h with rfl | rfl | rfl | rfl | rfl | rfl | rfl | hd
  · rfl
  · rfl
  · rfl
  · rfl
  · rfl
  · rfl
  · rfl
  · cases hw : jsonWs c
    · rfl
    · exfalso
      unfold jsonWs at hw
      simp only [Bool.or_eq_true, decide_eq_true_eq] at hw
      rcases hw with ((rfl | rfl) | rfl) | rfl <;> simp at hd

theorem valueHead_ne_rbrack {c : Char} (h : valueHead c) : ¬ c = ']' := by
  rcases h with rfl | rfl | rfl | rfl | rfl | rfl | rfl | hd
  · decide
  · decide
  · decide
  · decide
  · decide
  · decide
  · decide
  · intro rfl2
    subst rfl2
    exact absurd hd (by decide)

theorem serLit_ne_nil (j : Json) : serLit j ≠ [] := by
  obtain ⟨c, t, heq, _⟩ := serLit_head_cons j
  simp [heq]

theorem skipWs_cons {c : Char} (t : List Char) (h : jsonWs c = false) :
    skipWs (c :: t) = c :: t := by
  simp [skipWs, List.dropWhile_cons, h]

theorem parseValue_digit {f : Nat} {c : Char} {t : List Char} (hd : c.isDigit = true) :
    parseValue (f + 1) (c :: t) =
      (match parseNum (c :: t) with
       | none => none
       | some (n, r) => some (.num (n : Int), r)) := by
  have hws : jsonWs c = false := valueHead_not_ws (by right; right; right; right; right; right; right; exact hd)
  unfold parseValue
  rw [skipWs_cons t hws]
  split
  all_goals simp_all

theorem parseArrElems_not_rbrack {f : Nat} {c : Char} {t : List Char} (h : ¬ c = ']') :
    parseArrElems (f + 1) (c :: t) =
      (match parseValue f (c :: t) with
       | none => none
       | some (v, r) =>
         match parseArrTail f (skipWs r) with
         | none => none
         | some (tl, r2) => some (.arr (.cons v tl), r2)) := by
  unfold parseArrElems
  split
  · simp_all
  · rfl

theorem skipWs_arrTail (a : JsonArr) (r : List Char) :
    skipWs (serArrRest a ++ ']' :: r) = serArrRest a ++ ']' :: r := by
  cases a with
  | nil => exact skipWs_cons _ (by decide)
  | cons x tl =>
    simp only [serArrRest, List.cons_append]
    exact skipWs_cons _ (by decide)

theorem skipWs_objTail (o : JsonObj) (r : List Char) :
    skipWs (serObjRest o ++ '}' :: r) = serObjRest o ++ '}' :: r := by
  cases o with
  | nil => exact skipWs_cons _ (by decide)
  | cons k v tl =>
    simp only [serObjRest, List.cons_append]
    exact skipWs_cons _ (by decide)

theorem skipWs_arrElems (a : JsonArr) (r : List Char) :
    skipWs (serArrElems a ++ ']' :: r) = serArrElems a ++ ']' :: r := by
  cases a with
  | nil => exact skipWs_cons _ (by decide)
  | cons x tl =>
    obtain ⟨c, t, heq, hvh⟩ := serLit_head_cons x
    simp only [serArrElems, heq, List.cons_append, List.append_assoc]
    exact skipWs_cons _ (valueHead_not_ws hvh)

theorem skipWs_objElems (o : JsonObj) (r : List Char) :
    skipWs (serObjElems o ++ '}' :: r) = serObjElems o ++ '}' :: r := by
  cases o with
  | nil => exact skipWs_cons _ (by decide)
  | cons k v tl =>
    simp only [serObjElems, List.cons_append]
    exact skipWs_cons _ (by decide)

theorem arrSepHead (a : JsonArr) (r : List Char) :
    ∀ c, (serArrRest a ++ ']' :: r).head? = some c → c.isDigit = false := by
  cases a with
  | nil => intro c hc; simp [serArrRest] at hc; subst hc; decide
  | cons x tl =>
    intro c hc
    simp only [serArrRest, List.cons_append, List.head?_cons, Option.some.injEq] at hc
    subst hc; decide

theorem objSepHead (o : JsonObj) (r : List Char) :
    ∀ c, (serObjRest o ++ '}' :: r).head? = some c → c.isDigit = false := by
  cases o with
  | nil => intro c hc; simp [serObjRest] at hc; subst hc; decide
  | cons k v tl =>
    intro c hc
    simp only [serObjRest, List.cons_append, List.head?_cons, Option.some.injEq] at hc
    subst hc; decide

theorem parseArrTail_comma (f : Nat) (X : List Char) :
    parseArrTail (f + 1) (',' :: X) =
      (match parseValue f X with
       | none => none
       | some (v, r) =>
         match parseArrTail f (skipWs r) with
         | none => none
         | some (tl, r2) => some (JsonArr.cons v tl, r2)) := rfl

theorem parseObjElems_quote (f : Nat) (X : List Char) :
    parseObjElems (f + 1) ('"' :: X) =
      (match parseStrBody X with
       | none => none
       | some (k, r) =>
         match skipWs r with
         | ':' :: r2 =>
           match parseValue f r2 with
           | none => none
           | some (v, r3) =>
             match parseObjTail f (skipWs r3) with
             | none => none
             | some (tl, r4) => some (Json.obj (JsonObj.cons k v tl), r4)
         | _ => none) := rfl

theorem parseObjTail_comma (f : Nat) (X : List Char) :
    parseObjTail (f + 1) (',' :: X) =
      (match skipWs X with
       | '"' :: r =>
         match parseStrBody r with
         | none => none
         | some (k, r1) =>
           match skipWs r1 with
           | ':' :: r2 =>
             match parseValue f r2 with
             | none => none
             | some (v, r3) =>
               match parseObjTail f (skipWs r3) with
               | none => none
               | some (tl, r4) => some (JsonObj.cons k v tl, r4)
           | _ => none
       | _ => none) := rfl

mutual

theorem rtV : ∀ (j : Json) (rest : List Char) (fuel : Nat),
    tameJson j = true → (serLit j).length ≤ fuel →
    (∀ c, rest.head? = some c → c.isDigit = false) →
    parseValue fuel (serLit j ++ rest) = some (j, rest)
  | j, rest, 0, _, hf, _ => by
    exfalso
    obtain ⟨c, t, heq, _⟩ := serLit_head_cons j
    simp [heq] at hf
  | .null, rest, fuel + 1, _, _, _ => by
    show parseValue (fuel + 1) (['n', 'u', 'l', 'l'] ++ rest) = _
    unfold parseValue
    simp only [List.cons_append, List.nil_append]
    rw [skipWs_cons _ (by decide)]
    rfl
  | .bool true, rest, fuel + 1, _, _, _ => by
    show parseValue (fuel + 1) (['t', 'r', 'u', 'e'] ++ rest) = _
    unfold parseValue
    simp only [List.cons_append, List.nil_append]
    rw [skipWs_cons _ (by decide)]
    rfl
  | .bool false, rest, fuel + 1, _, _, _ => by
    show parseValue (fuel + 1) (['f', 'a', 'l', 's', 'e'] ++ rest) = _
    unfold parseValue
    simp only [List.cons_append, List.nil_append]
    rw [skipWs_cons _ (by decide)]
    rfl
  | .num (Int.ofNat m), rest, fuel + 1, _, _, hrest => by
    show parseValue (fuel + 1) (serNat m ++ rest) = _
    rcases hser : serNat m with _ | ⟨c, t⟩
    · exact absurd hser (serNat_ne_nil m)
    · have hd : c.isDigit = true := serNat_all_digits m c (by rw [hser]; simp)
      rw [List.cons_append, parseValue_digit hd, ← List.cons_append, ← hser,
        parseNum_serNat m rest hrest]
      rfl
  | .num (Int.negSucc m), rest, fuel + 1, _, _, hrest => by
    show parseValue (fuel + 1) (('-' :: serNat (m + 1)) ++ rest) = _
    unfold parseValue
    simp only [List.cons_append]
    rw [skipWs_cons _ (by decide)]
    show (match parseNum (serNat (m + 1) ++ rest) with
      | none => none
      | some (n, r) => some (Json.num (-(n : Int)), r)) = _
    rw [parseNum_serNat (m + 1) rest hrest]
    simp [Int.negSucc_eq]
  | .str s, rest, fuel + 1, ht, _, _ => by
    show parseValue (fuel + 1) (('"' :: (escStr s ++ ['"'])) ++ rest) = _
    unfold parseValue
    simp only [List.cons_append, List.append_assoc, List.nil_append]
    rw [skipWs_cons _ (by decide)]
    show (match parseStrBody (escStr s ++ '"' :: rest) with
      | none => none
      | some (s, r) => some (Json.str s, r)) = _
    rw [parseStrBody_escStr s (by simpa [tameJson] using ht) rest]
  | .arr a, rest, fuel + 1, ht, hf, hrest => by
    show parseValue (fuel + 1) (('[' :: (serArrElems a ++ [']'])) ++ rest) = _
    unfold parseValue
    simp only [List.cons_append, List.append_assoc, List.nil_append]
    rw [skipWs_cons _ (by decide)]
    show parseArrElems fuel (skipWs (serArrElems a ++ ']' :: rest)) = _
    rw [skipWs_arrElems a rest]
    have hta : tameArr a = true := by simpa [tameJson] using ht
    have hfa : (serArrElems a).length + 1 ≤ fuel := by
      simp only [serLit, List.length_cons, List.length_append, List.length_singleton] at hf
      omega
    rw [rtA a rest fuel hta hfa]
  | .obj o, rest, fuel + 1, ht, hf, hrest => by
    show parseValue (fuel + 1) (('{' :: (serObjElems o ++ ['}'])) ++ rest) = _
    unfold parseValue
    simp only [List.cons_append, List.append_assoc, List.nil_append]
    rw [skipWs_cons _ (by decide)]
    show parseObjElems fuel (skipWs (serObjElems o ++ '}' :: rest)) = _
    rw [skipWs_objElems o rest]
    have hto : tameObj o = true := by simpa [tameJson] using ht
    have hfo : (serObjElems o).length + 1 ≤ fuel := by
      simp only [serLit, List.length_cons, List.length_append, List.length_singleton] at hf
      omega
    rw [rtO o rest fuel hto hfo]

theorem rtA : ∀ (a : JsonArr) (rest : List Char) (fuel : Nat),
    tameArr a = true → (serArrElems a).length + 1 ≤ fuel →
    parseArrElems fuel (serArrElems a ++ ']' :: rest) = some (.arr a, rest)
  | a, r0, 0, ht0, hf => by omega
  | .nil, rest, fuel + 1, _, _ => by
    show parseArrElems (fuel + 1) (']' :: rest) = _
    unfold parseArrElems
    rfl
  | .cons x tl, rest, fuel + 1, ht, hf => by
    obtain ⟨c, t, heq, hvh⟩ := serLit_head_cons x
    have htx : tameJson x = true := by
      simp only [tameArr, Bool.and_eq_true] at ht
      exact ht.1
    have httl : tameArr tl = true := by
      simp only [tameArr, Bool.and_eq_true] at ht
      exact ht.2
    have hlen : (serLit x).length + (serArrRest tl).length ≤ fuel := by
      simp only [serArrElems, List.length_append] at hf
      omega
    have hxpos : 1 ≤ (serLit x).length := by
      rw [heq]; simp
    show parseArrElems (fuel + 1) ((serLit x ++ serArrRest tl) ++ ']' :: rest) = _
    rw [show ((serLit x ++ serArrRest tl) ++ ']' :: rest : List Char) =
      c :: (t ++ (serArrRest tl ++ ']' :: rest)) by rw [heq]; simp]
    rw [parseArrElems_not_rbrack (valueHead_ne_rbrack hvh)]
    rw [show (c :: (t ++ (serArrRest tl ++ ']' :: rest)) : List Char) =
      serLit x ++ (serArrRest tl ++ ']' :: rest) by rw [heq]; simp]
    rw [rtV x (serArrRest tl ++ ']' :: rest) fuel htx (by omega) (arrSepHead tl rest)]
    simp only [skipWs_arrTail tl rest, rtAT tl rest fuel httl (by omega)]

theorem rtAT : ∀ (a : JsonArr) (rest : List Char) (fuel : Nat),
    tameArr a = true → (serArrRest a).length + 1 ≤ fuel →
    parseArrTail fuel (serArrRest a ++ ']' :: rest) = some (a, rest)
  | a, r0, 0, ht0, hf => by omega
  | .nil, rest, fuel + 1, _, _ => by
    show parseArrTail (fuel + 1) (']' :: rest) = _
    unfold parseArrTail
    rfl
  | .cons x tl, rest, fuel + 1, ht, hf => by
    have htx : tameJson x = true := by
      simp only [tameArr, Bool.and_eq_true] at ht
      exact ht.1
    have httl : tameArr tl = true := by
      simp only [tameArr, Bool.and_eq_true] at ht
      exact ht.2
    have hlen : 1 + (serLit x).length + (serArrRest tl).length ≤ fuel := by
      simp only [serArrRest, List.length_cons, List.length_append] at hf
      omega
    have hxpos : 1 ≤ (serLit x).length := by
      obtain ⟨c, t, heq, _⟩ := serLit_head_cons x
      rw [heq]; simp
    show parseArrTail (fuel + 1) ((',' :: (serLit x ++ serArrRest tl)) ++ ']' :: rest) = _
    simp only [List.cons_append, List.append_assoc]
    rw [parseArrTail_comma]
    rw [rtV x (serArrRest tl ++ ']' :: rest) fuel htx (by omega) (arrSepHead tl rest)]
    simp only [skipWs_arrTail tl rest, rtAT tl rest fuel httl (by omega)]

theorem rtO : ∀ (o : JsonObj) (rest : List Char) (fuel : Nat),
    tameObj o = true → (serObjElems o).length + 1 ≤ fuel →
    parseObjElems fuel (serObjElems o ++ '}' :: rest) = some (.obj o, rest)
  | a, r0, 0, ht0, hf => by omega
  | .nil, rest, fuel + 1, _, _ => by
    show parseObjElems (fuel + 1) ('}' :: rest) = _
    unfold parseObjElems
    rfl
  | .cons k v tl, rest, fuel + 1, ht, hf => by
    have hparts : k.all charOk = true ∧ tameJson v = true ∧ tameObj tl = true := by
      simp only [tameObj, Bool.and_eq_true] at ht
      exact ⟨ht.1.1, ht.1.2, ht.2⟩
    have hlen : (escStr k).length + 3 + (serLit v).length + (serObjRest tl).length ≤ fuel := by
      simp only [serObjElems, List.length_cons, List.length_append] at hf
      omega
    have hvpos : 1 ≤ (serLit v).length := by
      obtain ⟨c, t, heq, _⟩ := serLit_head_cons v
      rw [heq]; simp
    show parseObjElems (fuel + 1)
      ('"' :: ((escStr k ++ '"' :: ':' :: (serLit v ++ serObjRest tl)) ++ '}' :: rest)) = _
    rw [parseObjElems_quote]
    rw [show ((escStr k ++ '"' :: ':' :: (serLit v ++ serObjRest tl)) ++ '}' :: rest : List Char) =
      escStr k ++ '"' :: (':' :: (serLit v ++ (serObjRest tl ++ '}' :: rest))) by simp]
    rw [parseStrBody_escStr k hparts.1 (':' :: (serLit v ++ (serObjRest tl ++ '}' :: rest)))]
    simp only []
    rw [show skipWs (':' :: (serLit v ++ (serObjRest tl ++ '}' :: rest))) =
      ':' :: (serLit v ++ (serObjRest tl ++ '}' :: rest)) from skipWs_cons _ (by decide)]
    simp only []
    rw [rtV v (serObjRest tl ++ '}' :: rest) fuel hparts.2.1 (by omega) (objSepHead tl rest)]
    simp only [skipWs_objTail tl rest, rtOT tl rest fuel hparts.2.2 (by omega)]

theorem rtOT : ∀ (o : JsonObj) (rest : List Char) (fuel : Nat),
    tameObj o = true → (serObjRest o).length + 1 ≤ fuel →
    parseObjTail fuel (serObjRest o ++ '}' :: rest) = some (o, rest)
  | a, r0, 0, ht0, hf => by omega
  | .nil, rest, fuel + 1, _, _ => by
    show parseObjTail (fuel + 1) ('}' :: rest) = _
    unfold parseObjTail
    rfl
  | .cons k v tl, rest, fuel + 1, ht, hf => by
    have hparts : k.all charOk = true ∧ tameJson v = true ∧ tameObj tl = true := by
      simp only [tameObj, Bool.and_eq_true] at ht
      exact ⟨ht.1.1, ht.1.2, ht.2⟩
    have hlen : 1 + (escStr k).length + 3 + (serLit v).length + (serObjRest tl).length ≤ fuel := by
      simp only [serObjRest, List.length_cons, List.length_append] at hf
      omega
    have hvpos : 1 ≤ (serLit v).length := by
      obtain ⟨c, t, heq, _⟩ := serLit_head_cons v
      rw [heq]; simp
    show parseObjTail (fuel + 1)
      (',' :: (('"' :: (escStr k ++ '"' :: ':' :: (serLit v ++ serObjRest tl))) ++ '}' :: rest)) = _
    rw [parseObjTail_comma]
    rw [show (('"' :: (escStr k ++ '"' :: ':' :: (serLit v ++ serObjRest tl))) ++ '}' :: rest : List Char) =
      '"' :: (escStr k ++ '"' :: (':' :: (serLit v ++ (serObjRest tl ++ '}' :: rest)))) by simp]
    rw [skipWs_cons _ (by decide)]
    simp only []
    rw [parseStrBody_escStr k hparts.1 (':' :: (serLit v ++ (serObjRest tl ++ '}' :: rest)))]
    simp only []
    rw [show skipWs (':' :: (serLit v ++ (serObjRest tl ++ '}' :: rest))) =
      ':' :: (serLit v ++ (serObjRest tl ++ '}' :: rest)) from skipWs_cons _ (by decide)]
    simp only []
    rw [rtV v (serObjRest tl ++ '}' :: rest) fuel hparts.2.1 (by omega) (objSepHead tl rest)]
    simp only [skipWs_objTail tl rest, rtOT tl rest fuel hparts.2.2 (by omega)]

end

theorem scanLen_cons_other {c : Char} (hc1 : ¬ c = '{') (hc2 : ¬ c = '}')
    (rest : List Char) (d : Int) :
    scanLen (c :: rest) d = (scanLen rest d).map (· + 1) := by
  conv_lhs => rw [scanLen]
  rw [if_neg hc1, if_neg hc2]

theorem scanLen_lbrace (rest : List Char) (d : Int) :
    scanLen ('{' :: rest) d = (scanLen rest (d + 1)).map (· + 1) := by
  conv_lhs => rw [scanLen]
  rw [if_pos rfl]

theorem scanLen_rbrace (rest : List Char) (d : Int) (hd : ¬ d - 1 = 0) :
    scanLen ('}' :: rest) d = (scanLen rest (d - 1)).map (· + 1) := by
  conv_lhs => rw [scanLen]
  rw [if_neg (by decide), if_pos rfl, if_neg hd]

theorem scan_noBrace : ∀ (s : List Char), (∀ c ∈ s, ¬ c = '{' ∧ ¬ c = '}') →
    ∀ (r : List Char) (d : Int),
    scanLen (s ++ r) d = (scanLen r d).map (· + s.length)
  | [], _, r, d => by
    cases h : scanLen r d <;> simp [h]
  | c :: cs, hs, r, d => by
    have hc := hs c (by simp)
    have hcs : ∀ x ∈ cs, ¬ x = '{' ∧ ¬ x = '}' := fun x hx => hs x (by simp [hx])
    simp only [List.cons_append]
    rw [scanLen_cons_other hc.1 hc.2]
    rw [scan_noBrace cs hcs r d]
    cases h : scanLen r d with
    | none => simp [h]
    | some n =>
      simp only [h, Option.map_some', List.length_cons, Option.some.injEq]
      omega

theorem serNat_noBrace (n : Nat) : ∀ c ∈ serNat n, ¬ c = '{' ∧ ¬ c = '}' := by
  intro c hc
  have := serNat_all_digits n c hc
  constructor <;> intro rfl2 <;> subst rfl2 <;> exact absurd this (by decide)

theorem escStr_noBrace {s : List Char} (hs : s.all charOk = true) :
    ∀ c ∈ escStr s, ¬ c = '{' ∧ ¬ c = '}' := by
  intro c' hc'
  simp only [escStr, List.mem_flatMap] at hc'
  obtain ⟨c, hcmem, hc⟩ := hc'
  have hok : charOk c = true := by
    rw [List.all_eq_true] at hs
    exact hs c hcmem
  unfold escChar at hc
  split_ifs at hc with h1 h2 h3 h4 h5 h6 h7
  · simp at hc; rcases hc with rfl | rfl <;> exact ⟨by decide, by decide⟩
  · simp at hc; rcases hc with rfl | rfl <;> exact ⟨by decide, by decide⟩
  · simp at hc; rcases hc with rfl | rfl <;> exact ⟨by decide, by decide⟩
  · simp at hc; rcases hc with rfl | rfl <;> exact ⟨by decide, by decide⟩
  · simp at hc; rcases hc with rfl | rfl <;> exact ⟨by decide, by decide⟩
  · simp at hc; rcases hc with rfl | rfl <;> exact ⟨by decide, by decide⟩
  · simp at hc; rcases hc with rfl | rfl <;> exact ⟨by decide, by decide⟩
  · simp at hc
    subst hc
    unfold charOk at hok
    simp only [Bool.and_eq_true, decide_eq_true_eq] at hok
    exact ⟨hok.1.2, hok.2⟩

theorem serInt_noBrace (n : Int) : ∀ c ∈ serInt n, ¬ c = '{' ∧ ¬ c = '}' := by
  cases n with
  | ofNat m => exact serNat_noBrace m
  | negSucc m =>
    intro c hc
    simp only [serInt, List.mem_cons] at hc
    cases hc with
    | inl h => subst h; decide
    | inr h => exact serNat_noBrace _ c h

mutual

theorem scanV : ∀ (j : Json), tameJson j = true → ∀ (r : List Char) (d : Int), 1 ≤ d →
    scanLen (serLit j ++ r) d = (scanLen r d).map (· + (serLit j).length)
  | .null, _, r, d, _ => by
    exact scan_noBrace _ (by decide) r d
  | .bool true, _, r, d, _ => by
    exact scan_noBrace _ (by decide) r d
  | .bool false, _, r, d, _ => by
    exact scan_noBrace _ (by decide) r d
  | .num n, _, r, d, _ => by
    exact scan_noBrace _ (serInt_noBrace n) r d
  | .str s, ht, r, d, _ => by
    apply scan_noBrace
    intro c hc
    simp only [serLit, List.mem_cons, List.mem_append] at hc
    rcases hc with h | h | h | h
    · subst h; decide
    · exact escStr_noBrace (by simpa [tameJson] using ht) c h
    · subst h; decide
    · simp at h
  | .arr a, ht, r, d, hd => by
    have ha : tameArr a = true := by simpa [tameJson] using ht
    simp only [serLit, List.cons_append, List.append_assoc, List.singleton_append,
      List.nil_append]
    rw [scanLen_cons_other (by decide) (by decide)]
    rw [scanA a ha (']' :: r) d hd]
    rw [scanLen_cons_other (by decide) (by decide)]
    cases h : scanLen r d with
    | none => simp [h]
    | some n =>
      simp only [h, Option.map_some', Option.some.injEq, List.length_cons,
        List.length_append, List.length_singleton, List.length_nil]
      omega
  | .obj o, ht, r, d, hd => by
    have ho : tameObj o = true := by simpa [tameJson] using ht
    simp only [serLit, List.cons_append, List.append_assoc, List.singleton_append,
      List.nil_append]
    rw [scanLen_lbrace]
    rw [scanO o ho ('}' :: r) (d + 1) (by omega)]
    rw [scanLen_rbrace r (d + 1) (by omega)]
    have hdd : d + 1 - 1 = d := by omega
    rw [hdd]
    cases h : scanLen r d with
    | none => simp [h]
    | some n =>
      simp only [h, Option.map_some', Option.some.injEq, List.length_cons,
        List.length_append, List.length_singleton, List.length_nil]
      omega

theorem scanA : ∀ (a : JsonArr), tameArr a = true → ∀ (r : List Char) (d : Int), 1 ≤ d →
    scanLen (serArrElems a ++ r) d = (scanLen r d).map (· + (serArrElems a).length)
  | .nil, _, r, d, _ => by
    simp only [serArrElems, List.nil_append, List.length_nil]
    cases h : scanLen r d <;> simp [h]
  | .cons x tl, ht, r, d, hd => by
    have hx : tameJson x = true := by
      have := ht; simp [tameArr] at this; exact this.1
    have htl : tameArr tl = true := by
      have := ht; simp [tameArr] at this; exact this.2
    simp only [serArrElems, List.append_assoc]
    rw [scanV x hx (serArrRest tl ++ r) d hd]
    rw [scanAT tl htl r d hd]
    cases h : scanLen r d with
    | none => simp [h]
    | some n =>
      simp only [h, Option.map_some', Option.some.injEq, List.length_append]
      omega

theorem scanAT : ∀ (a : JsonArr), tameArr a = true → ∀ (r : List Char) (d : Int), 1 ≤ d →
    scanLen (serArrRest a ++ r) d = (scanLen r d).map (· + (serArrRest a).length)
  | .nil, _, r, d, _ => by
    simp only [serArrRest, List.nil_append, List.length_nil]
    cases h : scanLen r d <;> simp [h]
  | .cons x tl, ht, r, d, hd => by
    have hx : tameJson x = true := by
      have := ht; simp [tameArr] at this; exact this.1
    have htl : tameArr tl = true := by
      have := ht; simp [tameArr] at this; exact this.2
    simp only [serArrRest, List.cons_append, List.append_assoc]
    rw [scanLen_cons_other (by decide) (by decide)]
    rw [scanV x hx (serArrRest tl ++ r) d hd]
    rw [scanAT tl htl r d hd]
    cases h : scanLen r d with
    | none => simp [h]
    | some n =>
      simp only [h, Option.map_some', Option.some.injEq, List.length_cons,
        List.length_append]
      omega

theorem scanO : ∀ (o : JsonObj), tameObj o = true → ∀ (r : List Char) (d : Int), 1 ≤ d →
    scanLen (serObjElems o ++ r) d = (scanLen r d).map (· + (serObjElems o).length)
  | .nil, _, r, d, _ => by
    simp only [serObjElems, List.nil_append, List.length_nil]
    cases h : scanLen r d <;> simp [h]
  | .cons k v tl, ht, r, d, hd => by
    have hparts := ht
    simp only [tameObj, Bool.and_eq_true] at hparts
    obtain ⟨⟨hk, hv⟩, htl⟩ := hparts
    have hassoc :
        serObjElems (.cons k v tl) ++ r =
          ('"' :: (escStr k ++ ['"', ':'])) ++ (serLit v ++ (serObjRest tl ++ r)) := by
      simp [serObjElems, List.append_assoc]
    rw [hassoc]
    rw [scan_noBrace ('"' :: (escStr k ++ ['"', ':']))
      (by
        intro c hc
        simp only [List.mem_cons, List.mem_append] at hc
        rcases hc with h | h | h
        · subst h; decide
        · exact escStr_noBrace hk c h
        · rcases h with h | h
          · subst h; decide
          · simp at h; subst h; decide)
      (serLit v ++ (serObjRest tl ++ r)) d]
    rw [scanV v hv (serObjRest tl ++ r) d hd]
    rw [scanOT tl htl r d hd]
    cases h : scanLen r d with
    | none => simp [h]
    | some n =>
      simp only [h, Option.map_some', Option.some.injEq, serObjElems,
        List.length_cons, List.length_append, List.length_nil]
      omega

theorem scanOT : ∀ (o : JsonObj), tameObj o = true → ∀ (r : List Char) (d : Int), 1 ≤ d →
    scanLen (serObjRest o ++ r) d = (scanLen r d).map (· + (serObjRest o).length)
  | .nil, _, r, d, _ => by
    simp only [serObjRest, List.nil_append, List.length_nil]
    cases h : scanLen r d <;> simp [h]
  | .cons k v tl, ht, r, d, hd => by
    have hparts := ht
    simp only [tameObj, Bool.and_eq_true] at hparts
    obtain ⟨⟨hk, hv⟩, htl⟩ := hparts
    have hassoc :
        serObjRest (JsonObj.cons k v tl) ++ r =
          (',' :: '"' :: (escStr k ++ ['"', ':'])) ++ (serLit v ++ (serObjRest tl ++ r)) := by
      simp [serObjRest, List.append_assoc]
    rw [hassoc]
    rw [scan_noBrace (',' :: '"' :: (escStr k ++ ['"', ':']))
      (by
        intro c hc
        simp only [List.mem_cons, List.mem_append] at hc
        rcases hc with h | h | h | h
        · subst h; decide
        · subst h; decide
        · exact escStr_noBrace hk c h
        · rcases h with h | h
          · subst h; decide
          · simp at h; subst h; decide)
      (serLit v ++ (serObjRest tl ++ r)) d]
    rw [scanV v hv (serObjRest tl ++ r) d hd]
    rw [scanOT tl htl r d hd]
    cases h : scanLen r d with
    | none => simp [h]
    | some n =>
      simp only [h, Option.map_some', Option.some.injEq, serObjRest,
        List.length_cons, List.length_append, List.length_nil]
      omega

end

/-- The brace scan of a serialized tame object at depth 0 stops exactly at
the object's closing brace, whatever follows. -/
theorem scanTop (o : JsonObj) (ho : tameObj o = true) (suf : List Char) :
    scanLen (serLit (.obj o) ++ suf) 0 = some (serLit (.obj o)).length := by
  simp only [serLit, List.cons_append, List.append_assoc, List.singleton_append,
    List.nil_append]
  rw [scanLen_lbrace]
  norm_num
  rw [scanO o ho ('}' :: suf) 1 (by omega)]
  have h1 : scanLen ('}' :: suf) (1 : Int) = some 1 := by
    conv_lhs => rw [scanLen]
    rw [if_neg (by decide), if_pos rfl, if_pos (by norm_num)]
  rw [h1]
  simp only [Option.map_some', Option.some.injEq, List.length_cons,
    List.length_append, List.length_nil]
  omega

/-- The scan's verdict is determined by the prefix it stops in: appending
anything after a successful scan changes nothing. -/
theorem scan_mono : ∀ (s r : List Char) (d : Int) (n : Nat),
    scanLen s d = some n → scanLen (s ++ r) d = some n
  | [], _, d, n => by
    intro h
    rw [scanLen] at h
    exact absurd h (by simp)
  | c :: cs, r, d, n => by
    intro h
    rw [scanLen] at h
    rw [List.cons_append, scanLen]
    by_cases h1 : c = '{'
    · simp only [if_pos h1] at h ⊢
      cases h2 : scanLen cs (d + 1) with
      | none => rw [h2] at h; simp at h
      | some m =>
        rw [scan_mono cs r (d + 1) m h2]
        rw [h2] at h
        simpa using h
    · by_cases h3 : c = '}'
      · simp only [if_neg h1, if_pos h3] at h ⊢
        by_cases h4 : d - 1 = 0
        · simp only [if_pos h4] at h ⊢
          exact h
        · simp only [if_neg h4] at h ⊢
          cases h2 : scanLen cs (d - 1) with
          | none => rw [h2] at h; simp at h
          | some m =>
            rw [scan_mono cs r (d - 1) m h2]
            rw [h2] at h
            simpa using h
      · simp only [if_neg h1, if_neg h3] at h ⊢
        cases h2 : scanLen cs d with
        | none => rw [h2] at h; simp at h
        | some m =>
          rw [scan_mono cs r d m h2]
          rw [h2] at h
          simpa using h

/-- `dropWhile` jumps over a wholly satisfying prefix. -/
theorem dropWhile_append_all {α : Type} (p : α → Bool) :
    ∀ (l l' : List α), (∀ a ∈ l, p a = true) →
      List.dropWhile p (l ++ l') = List.dropWhile p l'
  | [], _, _ => rfl
  | a :: l, l', h => by
    rw [List.cons_append, List.dropWhile_cons, if_pos (h a (List.mem_cons_self a l))]
    exact dropWhile_append_all p l l' (fun b hb => h b (List.mem_cons_of_mem a hb))

/-- The parser model accepts exactly the serializer's output on tame
values, whole-input version. -/
theorem json_loads_serLit (j : Json) (hj : tameJson j = true) :
    json_loads (serLit j) = some j := by
  have h := rtV j [] ((serLit j).length + 1) hj (by omega)
    (by intro c hc; simp at hc)
  rw [List.append_nil] at h
  unfold json_loads
  rw [h]
  rfl

/-- `noJsonFound` characterisation: the "No JSON object found" branch fires
exactly when the text has no `\x7b`. -/
theorem extract_noJson_iff (text : List Char) :
    extract_first_json_block text = .error .noJsonFound ↔ ∀ c ∈ text, ¬ c = '{' := by
  constructor
  · intro h c hc
    unfold extract_first_json_block at h
    by_cases he : (List.dropWhile (fun c => decide (¬ c = '{')) text).isEmpty
    · have hnil := List.isEmpty_iff.mp he
      have := List.dropWhile_eq_nil_iff.mp hnil c hc
      simpa using this
    · exfalso
      rw [if_neg he] at h
      cases hs : scanLen (List.dropWhile (fun c => decide (¬ c = '{')) text) 0 with
      | none => rw [hs] at h; exact absurd h (by simp)
      | some n =>
        rw [hs] at h
        simp only [] at h
        cases hj : json_loads ((List.dropWhile (fun c => decide (¬ c = '{')) text).take n) with
        | none => rw [hj] at h; exact absurd h (by simp)
        | some j => rw [hj] at h; exact absurd h (by simp)
  · intro hall
    unfold extract_first_json_block
    have hnil : List.dropWhile (fun c => decide (¬ c = '{')) text = [] :=
      List.dropWhile_eq_nil_iff.mpr (fun c hc => by simpa using hall c hc)
    rw [hnil]
    rfl

/-- With a `\x7b`-free prefix, extraction lands on the given
brace-balanced block and its verdict is that of the single `json.loads`
attempt on it, whatever the suffix holds. -/
theorem extract_on_first_block (pre block suf : List Char)
    (hpre : ∀ c ∈ pre, ¬ c = '{') (hhead : block.head? = some '{')
    (hscan : scanLen block 0 = some block.length) :
    extract_first_json_block (pre ++ block ++ suf) =
      (match json_loads block with
       | some j => .ok j
       | none => .error .malformedJson) := by
  obtain ⟨bs, rfl⟩ : ∃ bs, block = '{' :: bs := by
    cases block with
    | nil => simp at hhead
    | cons b bs =>
      simp only [List.head?_cons, Option.some.injEq] at hhead
      exact ⟨bs, by rw [hhead]⟩
  unfold extract_first_json_block
  rw [List.append_assoc]
  have hdrop : List.dropWhile (fun c => decide (¬ c = '{'))
      (pre ++ (('{' :: bs) ++ suf)) = ('{' :: bs) ++ suf := by
    rw [dropWhile_append_all (fun c => decide (¬ c = '{')) pre _
      (fun a ha => by simpa using hpre a ha)]
    rw [List.cons_append, List.dropWhile_cons]
    simp
  rw [hdrop]
  rw [if_neg (by simp)]
  rw [scan_mono ('{' :: bs) suf 0 ('{' :: bs).length hscan]
  simp only []
  rw [List.take_left]

/-- C2: no exception escapes the four public entry points: every run ends
`completed` or `failed`, `processing_time` is set regardless of outcome,
a failed run carries an error message, and artifacts produced before the
failure point (transcript before a minutes failure, transcript/minutes/
events before a calendar-service failure) stay attached; a transcription
failure leaves transcript/minutes/events unset with the error captured. -/
theorem orchestrator_no_escape (transcribeR : Except PyErr MeetingTranscript)
    (inferResp minutesResp eventsResp : Except PyErr (List Char))
    (createR : Except PyErr Nat) (mid : List Char) (elapsed : Nat) :
    resultContract (process_meeting transcribeR inferResp minutesResp eventsResp createR mid elapsed) elapsed ∧
    resultContract (generate_minutes_only transcribeR minutesResp mid elapsed) elapsed ∧
    resultContract (extract_events_only transcribeR eventsResp createR mid elapsed) elapsed ∧
    resultContract (generate_transcript_only transcribeR mid elapsed) elapsed ∧
    (match transcribeR with
     | .error e =>
       (process_meeting transcribeR inferResp minutesResp eventsResp createR mid elapsed).status = .failed ∧
       (process_meeting transcribeR inferResp minutesResp eventsResp createR mid elapsed).error_message = some e ∧
       (process_meeting transcribeR inferResp minutesResp eventsResp createR mid elapsed).transcript = none ∧
       (process_meeting transcribeR inferResp minutesResp eventsResp createR mid elapsed).minutes = none ∧
       (process_meeting transcribeR inferResp minutesResp eventsResp createR mid elapsed).calendar_events = []
     | .ok t =>
       (generate_minutes_only transcribeR minutesResp mid elapsed).transcript = some t ∧
       (extract_events_only transcribeR eventsResp createR mid elapsed).transcript = some t ∧
       (generate_transcript_only transcribeR mid elapsed).transcript = some t ∧
       (match infer_speaker_names inferResp t with
        | .error _ =>
          (process_meeting transcribeR inferResp minutesResp eventsResp createR mid elapsed).transcript = some t
        | .ok msp =>
          (process_meeting transcribeR inferResp minutesResp eventsResp createR mid elapsed).transcript =
            some (relabelApplied msp t) ∧
          (match generate_meeting_minutes minutesResp (relabelApplied msp t) with
           | .error _ =>
             (process_meeting transcribeR inferResp minutesResp eventsResp createR mid elapsed).minutes = none
           | .ok mins =>
             (process_meeting transcribeR inferResp minutesResp eventsResp createR mid elapsed).minutes = some mins ∧
             (process_meeting transcribeR inferResp minutesResp eventsResp createR mid elapsed).calendar_events =
               extract_calendar_events eventsResp (relabelApplied msp t) (some mins)))) := by
  cases transcribeR with
  | error e =>
    refine ⟨?_, ?_, ?_, ?_, ?_⟩ <;>
      simp [process_meeting, generate_minutes_only, extract_events_only,
        generate_transcript_only, resultContract, initialResult]
  | ok t =>
    refine ⟨?_, ?_, ?_, ?_, ?_⟩
    · simp only [process_meeting]
      cases hinf : infer_speaker_names inferResp t with
      | error e => simp [hinf, resultContract, initialResult]
      | ok msp =>
        cases hgen : generate_meeting_minutes minutesResp (relabelApplied msp t) with
        | error e => simp [hinf, hgen, resultContract, initialResult]
        | ok mins =>
          cases hcr : maybeCreateEvents
              (extract_calendar_events eventsResp (relabelApplied msp t) (some mins)) createR <;>
            simp [hinf, hgen, hcr, resultContract, initialResult]
    · simp only [generate_minutes_only]
      cases hgen : generate_meeting_minutes minutesResp t <;>
        simp [hgen, resultContract, initialResult]
    · simp only [extract_events_only]
      cases hcr : maybeCreateEvents (extract_calendar_events eventsResp t none) createR <;>
        simp [hcr, resultContract, initialResult]
    · simp [generate_transcript_only, resultContract, initialResult]
    · refine ⟨?_, ?_, ?_, ?_⟩
      · simp only [generate_minutes_only]
        cases hgen : generate_meeting_minutes minutesResp t <;> simp [hgen, initialResult]
      · simp only [extract_events_only]
        cases hcr : maybeCreateEvents (extract_calendar_events eventsResp t none) createR <;>
          simp [hcr, initialResult]
      · simp [generate_transcript_only, initialResult]
      · simp only [process_meeting]
        cases hinf : infer_speaker_names inferResp t with
        | error e => simp [hinf, initialResult]
        | ok msp =>
          cases hgen : generate_meeting_minutes minutesResp (relabelApplied msp t) with
          | error e => simp [hinf, hgen, initialResult]
          | ok mins =>
            cases hcr : maybeCreateEvents
                (extract_calendar_events eventsResp (relabelApplied msp t) (some mins)) createR <;>
              simp [hinf, hgen, hcr, initialResult]

/-- C3: when every segment speaker occurs among the speaker identifiers,
relabeling maps each segment and each speaker entry through the map
exactly once (`M[original]` when the original identifier is a key, the
original identifier otherwise — entries with absent labels are unchanged),
and afterwards every segment's identifier still occurs in the relabeled
speaker list; keys are matched against pre-relabel identifiers only. -/
theorem relabel_consistent (t : MeetingTranscript) (M : List (List Char × List Char))
    (hcov : ∀ seg ∈ t.segments, seg.speaker ∈ t.speakers.map Speaker.speaker_id) :
    ((relabelTranscript M t).segments.length = t.segments.length ∧
     (relabelTranscript M t).speakers.length = t.speakers.length) ∧
    (∀ (i : Nat) (seg : TranscriptionSegment) (v : List Char),
      t.segments[i]? = some seg → lookupMap M seg.speaker = some v →
      (relabelTranscript M t).segments[i]? = some { seg with speaker := v }) ∧
    (∀ (i : Nat) (seg : TranscriptionSegment),
      t.segments[i]? = some seg → lookupMap M seg.speaker = none →
      (relabelTranscript M t).segments[i]? = some seg) ∧
    (∀ (i : Nat) (sp : Speaker) (v : List Char),
      t.speakers[i]? = some sp → lookupMap M sp.speaker_id = some v →
      (relabelTranscript M t).speakers[i]? = some { sp with speaker_id := v }) ∧
    (∀ (i : Nat) (sp : Speaker),
      t.speakers[i]? = some sp → lookupMap M sp.speaker_id = none →
      (relabelTranscript M t).speakers[i]? = some sp) ∧
    (∀ seg2 ∈ (relabelTranscript M t).segments,
      seg2.speaker ∈ (relabelTranscript M t).speakers.map Speaker.speaker_id) := by
  refine ⟨⟨by simp [relabelTranscript], by simp [relabelTranscript]⟩, ?_, ?_, ?_, ?_, ?_⟩
  · intro i seg v hseg hv
    simp [relabelTranscript, List.getElem?_map, hseg, applyMap, hv]
  · intro i seg hseg hv
    simp [relabelTranscript, List.getElem?_map, hseg, applyMap, hv]
  · intro i sp v hsp hv
    simp [relabelTranscript, List.getElem?_map, hsp, applyMap, hv]
  · intro i sp hsp hv
    simp [relabelTranscript, List.getElem?_map, hsp, applyMap, hv]
  · intro seg2 hseg2
    simp only [relabelTranscript, List.mem_map] at hseg2 ⊢
    obtain ⟨seg, hmem, rfl⟩ := hseg2
    obtain ⟨sp, hspmem, hid⟩ := List.mem_map.mp (hcov seg hmem)
    exact ⟨{ sp with speaker_id := applyMap M sp.speaker_id }, ⟨sp, hspmem, rfl⟩, by simp [hid]⟩

/-- Witness for C3 at a concrete transcript and map. -/
theorem relabel_consistent_witness :
    (∀ seg ∈ exTranscript.segments,
      seg.speaker ∈ exTranscript.speakers.map Speaker.speaker_id) ∧
    (∀ seg2 ∈ (relabelTranscript exMap exTranscript).segments,
      seg2.speaker ∈ (relabelTranscript exMap exTranscript).speakers.map Speaker.speaker_id) :=
  ⟨by decide, (relabel_consistent exTranscript exMap (by decide)).2.2.2.2.2⟩

/-- C10: `generate_minutes_only` and `extract_events_only` perform no
speaker inference and no relabeling: the transcript attached to the result
is exactly the transcription output, the minutes are generated from that
unchanged transcript (their participants are derived from the raw segment
speaker labels), and event extraction receives the unchanged transcript. -/
theorem no_relabel_outside_full_pipeline (t : MeetingTranscript)
    (minutesResp eventsResp : Except PyErr (List Char)) (createR : Except PyErr Nat)
    (mid : List Char) (elapsed : Nat) :
    (generate_minutes_only (.ok t) minutesResp mid elapsed).transcript = some t ∧
    (extract_events_only (.ok t) eventsResp createR mid elapsed).transcript = some t ∧
    (generate_minutes_only (.ok t) minutesResp mid elapsed).minutes =
      (match generate_meeting_minutes minutesResp t with
       | .ok m => some m
       | .error _ => none) ∧
    (∀ m : MeetingMinutes,
      (generate_minutes_only (.ok t) minutesResp mid elapsed).minutes = some m →
      m.participants = dedup (t.segments.map TranscriptionSegment.speaker)) ∧
    (extract_events_only (.ok t) eventsResp createR mid elapsed).calendar_events =
      extract_calendar_events eventsResp t none := by
  have hev : (extract_events_only (.ok t) eventsResp createR mid elapsed).transcript = some t ∧
      (extract_events_only (.ok t) eventsResp createR mid elapsed).calendar_events =
        extract_calendar_events eventsResp t none := by
    simp only [extract_events_only]
    split <;> simp
  have hmin : (generate_minutes_only (.ok t) minutesResp mid elapsed).transcript = some t ∧
      (generate_minutes_only (.ok t) minutesResp mid elapsed).minutes =
        (match generate_meeting_minutes minutesResp t with
         | .ok m => some m
         | .error _ => none) := by
    simp only [generate_minutes_only]
    cases h : generate_meeting_minutes minutesResp t <;> simp [h, initialResult]
  refine ⟨hmin.1, hev.1, hmin.2, ?_, hev.2⟩
  intro m hm
  rw [hmin.2] at hm
  cases h : generate_meeting_minutes minutesResp t with
  | error e => rw [h] at hm; exact absurd hm (by simp)
  | ok m2 =>
    rw [h] at hm
    cases hm
    exact (participants_of_generate_ok h).1

/-- Witness for C10: with an empty-object response the minutes succeed and
their participants are the raw deduplicated segment labels. -/
theorem no_relabel_outside_full_pipeline_witness :
    (generate_minutes_only (.ok exTranscript) (.ok ("\x7b\x7d".toList)) ("m1".toList) 3).transcript
      = some exTranscript ∧
    ((generate_minutes_only (.ok exTranscript) (.ok ("\x7b\x7d".toList)) ("m1".toList) 3).minutes.map
      MeetingMinutes.participants) =
      some (dedup (exTranscript.segments.map TranscriptionSegment.speaker)) := by
  have h := no_relabel_outside_full_pipeline exTranscript (.ok ("\x7b\x7d".toList))
    (.error .serviceError) (.error .serviceError) ("m1".toList) 3
  refine ⟨h.1, ?_⟩
  cases hm : (generate_minutes_only (.ok exTranscript) (.ok ("\x7b\x7d".toList))
      ("m1".toList) 3).minutes with
  | none =>
    rw [h.2.2.1] at hm
    revert hm
    decide
  | some m =>
    simp [h.2.2.2.1 m hm]

/-- C6 (code bug): when the completion call itself raises,
`infer_speaker_names` does not return the documented empty mapping — its
`except` handler prints the unbound local `response` and raises
`UnboundLocalError`; with a bound response every failure path does return
a mapping, keeping exactly the string-valued entries. -/
theorem infer_speaker_names_raises_on_call_failure :
    infer_speaker_names (.error .serviceError) exTranscript = .error .nameError ∧
    infer_speaker_names (.ok ("no json here".toList)) exTranscript = .ok [] ∧
    infer_speaker_names
      (.ok ("\x7b\"A\": \"John\", \"B\": 3\x7d".toList)) exTranscript =
      .ok [("A".toList, "John".toList)] := by
  exact ⟨rfl, rfl, rfl⟩

/-- C1 counterexample: the completion call succeeds and the response is a
syntactically valid JSON object, yet `generate_meeting_minutes` raises —
the action-item loop calls `.get` on a non-dict entry (`AttributeError`),
and the outer handler re-raises it. -/
theorem cex_minutes_raises_after_successful_call :
    generate_meeting_minutes
      (.ok ("\x7b\"action_items\": [\"x\"]\x7d".toList)) exTranscript =
      .error .attributeError :=
  rfl

/-- C1 (amended): when the response is non-JSON or its first balanced
block is malformed, `generate_meeting_minutes` never raises: fallback
parsing yields minutes whose four list fields are lists — bullet-derived
key points and empty action items, decisions and next steps. -/
theorem minutes_fallback_total (t : MeetingTranscript) (resp : List Char) (err : ExtractErr)
    (hx : extract_first_json_block resp = .error err) :
    generate_meeting_minutes (.ok resp) t =
      .ok { meeting_id := t.meeting_id, date := t.created_at, duration_ms := t.duration,
            participants := dedup (t.segments.map TranscriptionSegment.speaker),
            key_points := fallbackKeyPoints resp, action_items := [], decisions := [],
            next_steps := [], summary := fallback_summary resp } := by
  have hkp : vStrList
      (if truthy (.arr (listToArr ((fallbackKeyPoints resp).map .str))) = true then
        (Json.arr (listToArr ((fallbackKeyPoints resp).map .str)))
      else .arr .nil) = .ok (fallbackKeyPoints resp) := by
    cases hl : fallbackKeyPoints resp with
    | nil => rfl
    | cons x tl =>
      simp only [List.map, listToArr, truthy, if_pos]
      simp [vStrList, vStrArr, vStr, vStrArr_of_strs]
  have hts : truthy (Json.arr JsonArr.nil) = false := rfl
  have hns : vStrList (Json.arr JsonArr.nil) = .ok [] := rfl
  simp only [generate_meeting_minutes, hx, fallback_parsing]
  simp +decide [objGetD, JsonObj.get, pyIter, bind, Except.bind, pure, Except.pure,
    vStr, List.mapM, List.mapM.loop, hkp, hts, hns]

/-- Witness for C1 (amended): a plain-prose response with one bullet. -/
theorem minutes_fallback_total_witness :
    extract_first_json_block ("- item one\nplain prose".toList) = .error .noJsonFound ∧
    generate_meeting_minutes (.ok ("- item one\nplain prose".toList)) exTranscript =
      .ok { meeting_id := "m1".toList, date := 17, duration_ms := 9000,
            participants := ["A".toList, "B".toList],
            key_points := ["item one".toList], action_items := [], decisions := [],
            next_steps := [], summary := [] } :=
  ⟨rfl, minutes_fallback_total exTranscript ("- item one\nplain prose".toList) .noJsonFound rfl⟩

/-- C7 counterexample: one valid candidate followed by one whose
`start_time` is a number — `strptime` raises `TypeError`, which the loop's
`except (ValueError, KeyError)` does not catch, so the outer handler
discards everything and returns `[]` instead of the valid event (which on
its own is extracted). -/
theorem cex_event_candidate_aborts_extraction :
    extract_calendar_events
      (.ok (("\x7b\"events\": [\x7b\"start_time\": \"2025-01-02 10:00\", " ++
        "\"end_time\": \"2025-01-02 11:00\"\x7d, \x7b\"start_time\": 5\x7d]\x7d").toList))
      exTranscript none = [] ∧
    extract_calendar_events
      (.ok (("\x7b\"events\": [\x7b\"start_time\": \"2025-01-02 10:00\", " ++
        "\"end_time\": \"2025-01-02 11:00\"\x7d]\x7d").toList))
      exTranscript none =
      [⟨[], [], ⟨2025, 1, 2, 10, 0, 0⟩, ⟨2025, 1, 2, 11, 0, 0⟩, [], none⟩] :=
  ⟨rfl, rfl⟩

/-- C7 (amended): over candidates that are dicts whose timestamp values,
when present, are strings, each candidate is validated independently — a
candidate whose timestamp is missing or fails to parse (or whose other
fields fail validation) is dropped while the loop continues, and the
output is exactly the surviving candidates in input order. -/
theorem events_loop_drops_and_continues (cands : List Json)
    (htame : ∀ c ∈ cands, tameCandidate c = true) :
    processEvents cands = .ok (cands.filterMap validateCandidate) := by
  induction cands with
  | nil => rfl
  | cons c rest ih =>
    have hc := htame c (by simp)
    have hrest := ih (fun x hx => htame x (by simp [hx]))
    unfold processEvents
    cases hb : buildEvent c with
    | ok ev => rw [hrest]; simp [List.filterMap_cons, validateCandidate, hb]
    | error e =>
      have hcat := buildEvent_err_catchable hc hb
      simp [hcat, hrest, validateCandidate, hb, List.filterMap_cons]

/-- Witness for C7 (amended): one valid candidate and one with an
unparseable timestamp string — the output is exactly the valid event. -/
theorem events_loop_drops_and_continues_witness :
    (∀ c ∈ [Json.obj (.cons kStartTime (.str ("2025-01-02 10:00".toList))
        (.cons kEndTime (.str ("2025-01-02 11:00".toList)) .nil)),
      Json.obj (.cons kStartTime (.str ("not a time".toList))
        (.cons kEndTime (.str ("2025-01-02 11:00".toList)) .nil))],
      tameCandidate c = true) ∧
    processEvents
      [Json.obj (.cons kStartTime (.str ("2025-01-02 10:00".toList))
        (.cons kEndTime (.str ("2025-01-02 11:00".toList)) .nil)),
       Json.obj (.cons kStartTime (.str ("not a time".toList))
        (.cons kEndTime (.str ("2025-01-02 11:00".toList)) .nil))] =
      .ok [⟨[], [], ⟨2025, 1, 2, 10, 0, 0⟩, ⟨2025, 1, 2, 11, 0, 0⟩, [], none⟩] := by
  refine ⟨by decide, ?_⟩
  rw [events_loop_drops_and_continues _ (by decide)]
  rfl

/-- C8 counterexample: a candidate whose parsed start is strictly after
its parsed end is returned, not rejected — `extract_calendar_events`
performs no `start < end` comparison. -/
theorem cex_event_start_not_before_end :
    extract_calendar_events
      (.ok (("\x7b\"events\": [\x7b\"start_time\": \"2025-01-02 10:00\", " ++
        "\"end_time\": \"2025-01-01 10:00\"\x7d]\x7d").toList))
      exTranscript none =
      [⟨[], [], ⟨2025, 1, 2, 10, 0, 0⟩, ⟨2025, 1, 1, 10, 0, 0⟩, [], none⟩] ∧
    PyDateTime.lt ⟨2025, 1, 2, 10, 0, 0⟩ ⟨2025, 1, 1, 10, 0, 0⟩ = false :=
  ⟨rfl, rfl⟩

/-- C8 (amended): a candidate whose two timestamps both parse is included
with exactly those parsed timestamps whatever their order — the loop
enforces no `start_time < end_time` constraint. -/
theorem event_included_regardless_of_order (s e : List Char) (st en : PyDateTime)
    (hs : parse_datetime s = .ok st) (he : parse_datetime e = .ok en) :
    processEvents
      [.obj (.cons kStartTime (.str s) (.cons kEndTime (.str e) .nil))] =
      .ok [⟨[], [], st, en, [], none⟩] := by
  simp +decide [processEvents, buildEvent, pyIndex, JsonObj.get, objGetD, vStr, vStrList,
    vStrArr, vOptStr, hs, he, bind, Except.bind, pure, Except.pure]

/-- Witness for C8 (amended), at timestamps with start after end. -/
theorem event_included_regardless_of_order_witness :
    parse_datetime ("2025-01-02 10:00".toList) = .ok ⟨2025, 1, 2, 10, 0, 0⟩ ∧
    processEvents
      [.obj (.cons kStartTime (.str ("2025-01-02 10:00".toList))
        (.cons kEndTime (.str ("2025-01-01 10:00".toList)) .nil))] =
      .ok [⟨[], [], ⟨2025, 1, 2, 10, 0, 0⟩, ⟨2025, 1, 1, 10, 0, 0⟩, [], none⟩] :=
  ⟨rfl, event_included_regardless_of_order
    ("2025-01-02 10:00".toList) ("2025-01-01 10:00".toList)
    ⟨2025, 1, 2, 10, 0, 0⟩ ⟨2025, 1, 1, 10, 0, 0⟩ rfl rfl⟩

/-- C9 counterexample: an action item whose `priority` is the unrecognized
string `"urgent"` keeps it verbatim — the claim's default to `"medium"`
for unrecognized values does not happen. -/
theorem cex_priority_not_defaulted :
    generate_meeting_minutes
      (.ok ("\x7b\"action_items\": [\x7b\"priority\": \"urgent\"\x7d]\x7d".toList))
      exTranscript =
      .ok { meeting_id := "m1".toList, date := 17, duration_ms := 9000,
            participants := ["A".toList, "B".toList], key_points := [],
            action_items := [⟨[], none, none, "urgent".toList, "pending".toList⟩],
            decisions := [], next_steps := [], summary := [] } ∧
    ¬ ("urgent".toList = "medium".toList) :=
  ⟨rfl, by decide⟩

/-- C9 (amended): a successfully built action item's priority equals the
candidate's `priority` field whenever that field holds a string —
recognized or not — and `"medium"` exactly when the field is absent. -/
theorem action_item_priority_passthrough (o : JsonObj) (ai : ActionItem)
    (h : buildActionItem (.obj o) = .ok ai) :
    ai.priority = (match o.get kPriority with
      | some (.str p) => p
      | _ => "medium".toList) := by
  unfold buildActionItem at h
  simp only [bind, Except.bind, pure, Except.pure] at h
  by_cases hdd : truthy (objGetD o kDueDate Json.null) = true
  · rw [if_pos hdd] at h
    cases hv : objGetD o kDueDate Json.null with
    | str s =>
      rw [hv] at h
      cases hdesc : vStr (objGetD o kDescription (.str [])) with
      | error e => rw [hdesc] at h; exact absurd h (by simp)
      | ok desc =>
        rw [hdesc] at h
        cases hasg : vOptStr (objGetD o kAssignee Json.null) with
        | error e => rw [hasg] at h; exact absurd h (by simp)
        | ok asg =>
          cases hpr : vStr (objGetD o kPriority (.str ("medium".toList))) with
          | error e => rw [hasg, hpr] at h; exact absurd h (by simp)
          | ok pr =>
            rw [hasg, hpr] at h
            simp only [Except.ok.injEq] at h
            subst h
            exact priority_of_vStr_ok hpr
    | null => rw [hv] at h; exact absurd h (by simp)
    | bool b => rw [hv] at h; exact absurd h (by simp)
    | num n => rw [hv] at h; exact absurd h (by simp)
    | arr a => rw [hv] at h; exact absurd h (by simp)
    | obj oo => rw [hv] at h; exact absurd h (by simp)
  · rw [if_neg hdd] at h
    cases hdesc : vStr (objGetD o kDescription (.str [])) with
    | error e => rw [hdesc] at h; exact absurd h (by simp)
    | ok desc =>
      rw [hdesc] at h
      cases hasg : vOptStr (objGetD o kAssignee Json.null) with
      | error e => rw [hasg] at h; exact absurd h (by simp)
      | ok asg =>
        cases hpr : vStr (objGetD o kPriority (.str ("medium".toList))) with
        | error e => rw [hasg, hpr] at h; exact absurd h (by simp)
        | ok pr =>
          rw [hasg, hpr] at h
          simp only [Except.ok.injEq] at h
          subst h
          exact priority_of_vStr_ok hpr

/-- Witness for C9 (amended): a candidate carrying priority `"urgent"`. -/
theorem action_item_priority_passthrough_witness :
    buildActionItem (.obj (.cons kPriority (.str ("urgent".toList)) .nil)) =
      .ok ⟨[], none, none, "urgent".toList, "pending".toList⟩ ∧
    ActionItem.priority ⟨[], none, none, "urgent".toList, "pending".toList⟩ =
      (match (JsonObj.cons kPriority (.str ("urgent".toList)) .nil).get kPriority with
        | some (.str p) => p
        | _ => "medium".toList) :=
  ⟨rfl, action_item_priority_passthrough
    (.cons kPriority (.str ("urgent".toList)) .nil)
    ⟨[], none, none, "urgent".toList, "pending".toList⟩ rfl⟩

/-- C4: `extract_first_json_block` fails with "No JSON object found"
exactly when the text has no `\x7b`; otherwise the leading brace-free
prose is skipped, the first brace-balanced block is located by the count,
and the outcome is decided by the single `json.loads` attempt on that
block — `ok` on success, "No valid JSON object" on failure — irrespective
of anything after the block. -/
theorem extract_json_single_attempt :
    (∀ text : List Char,
      extract_first_json_block text = .error .noJsonFound ↔ ∀ c ∈ text, ¬ c = '{') ∧
    (∀ pre block suf : List Char, (∀ c ∈ pre, ¬ c = '{') →
      block.head? = some '{' → scanLen block 0 = some block.length →
      extract_first_json_block (pre ++ block ++ suf) =
        (match json_loads block with
         | some j => Except.ok j
         | none => Except.error ExtractErr.malformedJson)) :=
  ⟨extract_noJson_iff, extract_on_first_block⟩

/-- Witness for C4: prose with no brace raises `noJsonFound`; a text whose
first balanced block is `\x7b\x7d` parses to the empty object although a
second (unscanned, unbalanced) block follows. -/
theorem extract_json_single_attempt_witness :
    extract_first_json_block ("no json here".toList) = .error .noJsonFound ∧
    extract_first_json_block ("see: ".toList ++ ('{' :: '}' :: []) ++ " and \x7bmore".toList) =
      .ok (.obj .nil) := by
  constructor
  · exact (extract_json_single_attempt.1 ("no json here".toList)).mpr (by decide)
  · have h := extract_json_single_attempt.2 ("see: ".toList) ('{' :: '}' :: [])
      (" and \x7bmore".toList) (by decide) rfl (by decide)
    rw [h]
    rfl

/-- Counterexample to C5 as stated: the object `\x7b"a": "\x7d"\x7d` is a
valid JSON object — `json.loads` of its serialization returns it — but the
brace scan counts the literal `\x7d` inside the string value, cuts the
block one character early, and extraction fails outright even with empty
surrounding prose. -/
theorem cex_extract_roundtrip_brace_in_string :
    json_loads (serLit (.obj (.cons ['a'] (.str ['}']) .nil))) =
      some (.obj (.cons ['a'] (.str ['}']) .nil)) ∧
    extract_first_json_block ([] ++ serLit (.obj (.cons ['a'] (.str ['}']) .nil)) ++ []) =
      .error .malformedJson := by
  constructor
  · rfl
  · rfl

/-- C5 amended: the round trip holds for every tame object — strings (keys
included) free of literal brace characters and of control characters
outside the five short escapes — embedded in prose whose part before the
object contains no `\x7b`; the suffix is arbitrary. -/
theorem extract_json_roundtrip_tame (o : JsonObj) (pre suf : List Char)
    (ho : tameObj o = true) (hpre : ∀ c ∈ pre, ¬ c = '{') :
    extract_first_json_block (pre ++ serLit (.obj o) ++ suf) = .ok (.obj o) := by
  have hhead : (serLit (.obj o)).head? = some '{' := by simp [serLit]
  have hscan : scanLen (serLit (.obj o)) 0 = some (serLit (.obj o)).length := by
    have h := scanTop o ho []
    rwa [List.append_nil] at h
  rw [extract_on_first_block pre (serLit (.obj o)) suf hpre hhead hscan]
  rw [json_loads_serLit (.obj o) (by simpa [tameJson] using ho)]

/-- Witness for the amended C5: `\x7b"k": [1, true]\x7d` embedded in prose
(with a stray `\x7b` after it) is recovered exactly. -/
theorem extract_json_roundtrip_tame_witness :
    extract_first_json_block ("answer: ".toList ++
        serLit (.obj (.cons ['k'] (.arr (.cons (.num 1) (.cons (.bool true) .nil))) .nil)) ++
        " thanks\x7b".toList) =
      .ok (.obj (.cons ['k'] (.arr (.cons (.num 1) (.cons (.bool true) .nil))) .nil)) :=
  extract_json_roundtrip_tame
    (.cons ['k'] (.arr (.cons (.num 1) (.cons (.bool true) .nil))) .nil)
    ("answer: ".toList) (" thanks\x7b".toList) (by decide) (by decide)

end MeetingAssistant
